import Mathlib

/-! # yelo: path resolution and the archival restore gate

A shallow embedding of the pure core of `yelo` (FTP-style navigation over S3):

* `internal/state/resolve.go` : `ResolvePath`, `ResolvePrefix`
* `internal/state/state.go` : `State`, `SetBucket`
* `internal/config/config.go` : `GetBucket`, `ResolveBucket`, `ResolveRegion`,
  `ResolveProfile`, `AddBucket`, `RemoveBucket`, `SetDefault`
* `internal/aws/client.go` : `ObjectInfo`, `RestoreInput`, `HeadObject`
* `internal/aws/glacier.go` : `ParseRestoreHeader`, `ValidateTier`, `ParseTier`
* `internal/aws/transfer.go` : `Download`, `progressReader.Read`
* `cmd/get.go`, `cmd/restore.go`, `cmd/cd.go`, `cmd/helpers.go`, `cmd/root.go` : the
  archival read gate of `runGet`, `runRestore`, `runCD`, `isGlacierClass`,
  `parseBucketPath`, `Env.ResolveBucket`

Go strings are modelled as `List Char` (`GoString`).  The functions embedded here
inspect their strings only through comparisons with ASCII characters and ASCII
literals (and `strings.ToLower` maps runes), so working on characters instead of UTF-8
bytes does not change results.

The Go standard-library functions the repository calls (`path.Clean`, `path.Join`,
`strings.HasPrefix`, `strings.HasSuffix`, `strings.TrimPrefix`, `strings.Contains`,
`strings.IndexByte`, `strings.ToLower`) are embedded from the Go sources, in namespaces
named after their packages.  Results of I/O (`Save`, `HeadObject`, `Read`, `Write`, ...)
are inputs of the embedded functions.
-/

set_option autoImplicit false

/-- A Go `string`, as its sequence of characters. -/
abbrev GoString := List Char

/-! ## Go standard library: package `strings` -/

namespace strings

/-- Go `strings.HasPrefix(s, prefix)`. -/
def HasPrefix (s pre : GoString) : Bool := pre.isPrefixOf s

/-- Go `strings.HasSuffix(s, suffix)`. -/
def HasSuffix (s suf : GoString) : Bool := suf.isSuffixOf s

/-- Go `strings.TrimPrefix(s, prefix)`: `s` without the leading `prefix`, or `s` itself
when it does not start with `prefix`. -/
def TrimPrefix (s pre : GoString) : GoString :=
  if HasPrefix s pre then s.drop pre.length else s

/-- Go `strings.Contains(s, substr)`: `substr` occurs at some position of `s`. -/
def Contains : GoString → GoString → Bool
  | [], substr => substr.isEmpty
  | c :: s, substr => substr.isPrefixOf (c :: s) || Contains s substr

end strings

/-! ## Go standard library: package `path` -/

namespace path

/-- The inner loop of the `..` case of `path.Clean`, on the buffer `out[0:w]` held
last byte first:
`out.w--; for out.w > dotdot && out.index(out.w) != '/' { out.w-- }`.
Each step drops the last byte `c`; afterwards `out.index(out.w)` is that `c`. -/
def backtrack (dotdot : Nat) : List Char → List Char
  | [] => []
  | c :: out => if out.length > dotdot ∧ c ≠ '/' then backtrack dotdot out else out

/-- The copy loop of the default case of `path.Clean`:
`for ; r < n && path[r] != '/'; r++ { out.append(path[r]) }`.
Takes `path[r:]` and the buffer (last byte first); returns the unread rest and the
buffer. -/
def copyElem : List Char → List Char → List Char × List Char
  | [], out => ([], out)
  | c :: rest, out => if c = '/' then (c :: rest, out) else copyElem rest (c :: out)

/-- The test `r == n || path[r] == '/'` on the unread input `path[r:]`. -/
def atElemEnd : List Char → Bool
  | [] => true
  | c :: _ => c = '/'

/-- The main loop `for r < n { switch ... }` of `path.Clean`.  The state is the
unread input `path[r:]`, the buffer `out[0:w]` (last byte first, so `out.w` is its
length) and `dotdot`.  `lazybuf` is represented by its logical content: its `append`
pushes a byte, and its sharing of the input string is an allocation optimisation.
Every iteration consumes at least one byte, so `fuel = len(path)` iterations are
enough (`Clean` passes exactly that). -/
def cleanLoop (rooted : Bool) : Nat → List Char → List Char → Nat → List Char
  | 0, _, out, _ => out
  | _ + 1, [], out, _ => out
  | fuel + 1, c :: rest, out, dotdot =>
    if c = '/' then
      -- empty path element
      cleanLoop rooted fuel rest out dotdot
    else if c = '.' ∧ atElemEnd rest then
      -- . element
      cleanLoop rooted fuel rest out dotdot
    else if c = '.' ∧ rest.head? = some '.' ∧ atElemEnd rest.tail then
      -- .. element: remove to last /
      if out.length > dotdot then
        -- can backtrack
        cleanLoop rooted fuel rest.tail (backtrack dotdot out) dotdot
      else if !rooted then
        -- cannot backtrack, but not rooted, so append .. element
        let out1 := if out.length > 0 then '/' :: out else out
        let out2 := '.' :: '.' :: out1
        cleanLoop rooted fuel rest.tail out2 out2.length
      else
        cleanLoop rooted fuel rest.tail out dotdot
    else
      -- real path element: add slash if needed, copy element
      let out1 :=
        if (rooted && out.length != 1) || (!rooted && out.length != 0) then '/' :: out
        else out
      let r := copyElem (c :: rest) out1
      cleanLoop rooted fuel r.1 r.2 dotdot

/-- Go `path.Clean(path)`. -/
def Clean (path : GoString) : GoString :=
  if path = [] then ['.']
  else
    let rooted : Bool := path.head? = some '/'
    let n := path.length
    let out := cleanLoop rooted n (if rooted then path.tail else path)
      (if rooted then ['/'] else []) (if rooted then 1 else 0)
    -- Turn empty string into "."
    if out.length = 0 then ['.'] else out.reverse

/-- Go `path.Join(elem...)`: the elements, skipping leading empty ones, are put in a
buffer with `'/'` between them, and the buffer is cleaned; all-empty input gives `""`. -/
def Join (elem : List GoString) : GoString :=
  let size := (elem.map List.length).sum
  if size = 0 then []
  else
    let buf := elem.foldl
      (fun (buf : List Char) e =>
        if buf.length > 0 ∨ e ≠ [] then (if buf.length > 0 then buf ++ ['/'] else buf) ++ e
        else buf) []
    Clean buf

end path

/-! ## `internal/state/resolve.go` -/

namespace state

/-- Go `state.ResolvePath(current, target)`. -/
def ResolvePath (current target : GoString) : GoString :=
  let resolved :=
    if strings.HasPrefix target ['/'] then target
    else path.Join [['/'], current, target]
  let resolved := path.Clean resolved
  -- Strip leading slash
  let resolved := strings.TrimPrefix resolved ['/']
  if resolved = ['.'] then [] else resolved

/-- Go `state.ResolvePrefix(current, target)`. -/
def ResolvePrefix (current target : GoString) : GoString :=
  let p := ResolvePath current target
  if p ≠ [] ∧ !strings.HasSuffix p ['/'] then p ++ ['/'] else p

end state

/-! ## `internal/aws/glacier.go`, `internal/aws/client.go` -/

namespace aws

/-- Go `aws.ObjectInfo` (`internal/aws/client.go`). -/
structure ObjectInfo where
  Key : GoString
  Size : Int
  LastModified : GoString
  StorageClass : GoString
  RestoreStatus : GoString
  ContentType : GoString
  ETag : GoString
  IsPrefix : Bool

/-- Go `aws.ParseRestoreHeader(header)`. -/
def ParseRestoreHeader (header : GoString) : GoString :=
  if header = [] then []
  else if strings.Contains header "ongoing-request=\"true\"".toList then "in-progress".toList
  else if strings.Contains header "ongoing-request=\"false\"".toList then "available".toList
  else []

/-- The AWS SDK type `types.Tier`, declared there as `type Tier string`. -/
abbrev Tier := GoString

/-- SDK constant `types.TierStandard`. -/
def TierStandard : Tier := "Standard".toList

/-- SDK constant `types.TierBulk`. -/
def TierBulk : Tier := "Bulk".toList

/-- SDK constant `types.TierExpedited`. -/
def TierExpedited : Tier := "Expedited".toList

/-- Go `aws.ValidateTier(storageClass, tier)`; the returned `error` is `none` for `nil`
and `some msg` otherwise. -/
def ValidateTier (storageClass : GoString) (tier : Tier) : Option GoString :=
  if storageClass = "DEEP_ARCHIVE".toList ∧ tier = TierExpedited then
    some ("Expedited retrieval is not available for DEEP_ARCHIVE storage class; " ++
      "use Standard or Bulk").toList
  else none

/-- The `RestoreStatus` that `(*Client).HeadObject` stores in the `ObjectInfo` it
returns: the parsed `x-amz-restore` header when the response carries one
(`out.Restore != nil`), and the zero value `""` otherwise. -/
def headRestoreStatus (restore : Option GoString) : GoString :=
  match restore with
  | some header => ParseRestoreHeader header
  | none => []

end aws

/-! ## `cmd/helpers.go`, `cmd/get.go` -/

namespace cmd

/-- Go `cmd.isGlacierClass(class)`. -/
def isGlacierClass (cls : GoString) : Bool :=
  cls = "GLACIER".toList ∨ cls = "DEEP_ARCHIVE".toList ∨ cls = "GLACIER_IR".toList

/-- The error `runGet` returns for an archival object whose restore is in progress:
`fmt.Errorf("object %q is being restored from %s (in progress); try again later", key,
info.StorageClass)`.  `quote` is the rendering of the `%q` verb (`strconv.Quote`). -/
def errBeingRestored (quote : GoString → GoString) (key cls : GoString) : GoString :=
  "object ".toList ++ quote key ++ " is being restored from ".toList ++ cls ++
    " (in progress); try again later".toList

/-- The error `runGet` returns for an archival object that is not restored:
`fmt.Errorf("object %q is in %s storage; restore it first with: yelo restore %s", key,
info.StorageClass, args[0])`. -/
def errRestoreFirst (quote : GoString → GoString) (key cls arg0 : GoString) : GoString :=
  "object ".toList ++ quote key ++ " is in ".toList ++ cls ++
    " storage; restore it first with: yelo restore ".toList ++ arg0

/-- The archival check of `runGet` (the `if isGlacierClass(...) && ...` block after
`HeadObject`): `some err` when `runGet` returns `err` there, `none` when control falls
through to the download step. -/
def glacierCheck (quote : GoString → GoString) (info : aws.ObjectInfo)
    (key arg0 : GoString) : Option GoString :=
  if isGlacierClass info.StorageClass ∧ info.RestoreStatus ≠ "available".toList then
    if info.RestoreStatus = "in-progress".toList then
      some (errBeingRestored quote key info.StorageClass)
    else
      some (errRestoreFirst quote key info.StorageClass arg0)
  else none

/-- What `runGet` does once `HeadObject` has returned. -/
inductive GetOutcome
  /-- The archival check returned this error; no file was created, no download started. -/
  | refused (err : GoString)
  /-- The check passed and `os.Create(localPath)` failed; no download started. -/
  | createFailed (err : GoString)
  /-- The check passed and `client.Download` was called; `err` is what it returned. -/
  | downloaded (toStdout : Bool) (err : Option GoString)
  deriving DecidableEq

/-- Whether `client.Download` was called. -/
def GetOutcome.downloadStarted : GetOutcome → Bool
  | .downloaded _ _ => true
  | _ => false

/-- The `error` returned by `runGet` (`none` for `nil`). -/
def GetOutcome.error : GetOutcome → Option GoString
  | .refused e => some e
  | .createFailed e => some e
  | .downloaded _ e => e

/-- Go `cmd.runGet`, from the point where `client.HeadObject` has returned `info`.
`key` is the resolved key, `arg0` is `args[0]`, `toStdout`/`localPath` the
destination chosen before; `createErr` is the result of `os.Create(localPath)` and
`downloadErr` the result of `client.Download` (`none` for success). -/
def runGet (quote : GoString → GoString) (info : aws.ObjectInfo) (key arg0 : GoString)
    (toStdout : Bool) (localPath : GoString) (createErr downloadErr : Option GoString) :
    GetOutcome :=
  match glacierCheck quote info key arg0 with
  | some err => .refused err
  | none =>
    if toStdout then .downloaded true downloadErr
    else
      match createErr with
      | some e => .createFailed ("creating ".toList ++ localPath ++ ": ".toList ++ e)
      | none => .downloaded false downloadErr

end cmd

/-! ## Reference normalisation of the specification -/

namespace spec

/-- The `'/'`-separated segments of a string (`"a//b"` has segments `a`, empty, `b`;
the empty string has one empty segment). -/
def segments : GoString → List GoString
  | [] => [[]]
  | c :: cs =>
    if c = '/' then [] :: segments cs
    else (c :: (segments cs).headD []) :: (segments cs).tail

/-- One step of the left-to-right scan, on the stack of kept segments (most recently
kept first): empty and `.` segments are skipped, `..` pops the last kept segment
(nothing when the stack is empty), any other segment is pushed. -/
def scanStep (stack : List GoString) (seg : GoString) : List GoString :=
  if seg = [] ∨ seg = ['.'] then stack
  else if seg = ['.', '.'] then stack.tail
  else seg :: stack

/-- The kept segments, in path order, after scanning `segs` from an empty stack. -/
def normalise (segs : List GoString) : List GoString :=
  (segs.foldl scanStep []).reverse

/-- The segments joined by `'/'`, with no leading `'/'`. -/
def joinSegments (segs : List GoString) : GoString :=
  ['/'].intercalate segs

/-- The reference normalisation: the segments of `target` alone when it starts with
`'/'`, otherwise those of `current` followed by those of `target`, scanned and
joined. -/
def referenceResolve (current target : GoString) : GoString :=
  joinSegments (normalise
    (if target.head? = some '/' then segments target
     else segments current ++ segments target))

/-- The number of non-empty segments of a path. -/
def segmentCount (p : GoString) : Nat :=
  ((segments p).filter (fun s => s ≠ [])).length

/-- The relative target made of `k` segments `..`: `""`, `..`, `../..`, ... -/
def dotdots (k : Nat) : GoString :=
  joinSegments (List.replicate k ['.', '.'])

end spec

/-! ## More of the Go standard library: `strings.IndexByte`, `strings.ToLower` -/

namespace strings

/-- Go `strings.IndexByte(s, c)`: the index of the first `c` in `s`, or `-1`. -/
def IndexByte : GoString → Char → Int
  | [], _ => -1
  | x :: s, c =>
    if x = c then 0
    else if IndexByte s c < 0 then -1 else IndexByte s c + 1

end strings

namespace unicode

/-- The test `'A' <= r && r <= 'Z'`. -/
def isUpperASCII (r : Char) : Bool := 65 ≤ r.toNat ∧ r.toNat ≤ 90

/-- The ASCII step `r += 'a' - 'A'`, applied to upper-case ASCII letters only. -/
def lowerASCII (r : Char) : Char :=
  if isUpperASCII r then Char.ofNat (r.toNat + 32) else r

/-- Go `unicode.ToLower(r)`: the ASCII rule for `r <= MaxASCII`, otherwise the lookup
`To(LowerCase, r)` in the Unicode case tables, which is the parameter `table`. -/
def ToLower (table : Char → Char) (r : Char) : Char :=
  if r.toNat ≤ 127 then lowerASCII r else table r

end unicode

namespace strings

/-- Go `strings.ToLower(s)`: an ASCII-only string is returned unchanged when it has no
upper-case letter and with its upper-case letters shifted otherwise; any other string is
`strings.Map(unicode.ToLower, s)`. -/
def ToLower (table : Char → Char) (s : GoString) : GoString :=
  let isASCII := s.all (fun c => c.toNat < 128)
  let hasUpper := s.any unicode.isUpperASCII
  if isASCII then
    if !hasUpper then s else s.map unicode.lowerASCII
  else s.map (unicode.ToLower table)

end strings

/-! ## `internal/state/state.go` -/

namespace state

/-- Go `state.State`. -/
structure State where
  Bucket : GoString
  Prefix : GoString
  path : GoString

/-- Go `(*State).SetBucket(bucket)`. -/
def State.SetBucket (s : State) (bucket : GoString) : State :=
  { s with Bucket := bucket, Prefix := [] }

end state

/-! ## `internal/config/config.go` -/

namespace config

/-- Go `config.BucketConfig`. -/
structure BucketConfig where
  Name : GoString
  Region : GoString
  Profile : GoString
  deriving DecidableEq

/-- Go `config.Config`. -/
structure Config where
  DefaultBucket : GoString
  Buckets : List BucketConfig
  Region : GoString
  Profile : GoString
  path : GoString

/-- The loop of `(*Config).GetBucket`: the first bucket whose name is `name`. -/
def getBucketLoop (name : GoString) : List BucketConfig → Option BucketConfig
  | [] => none
  | b :: bs => if b.Name = name then some b else getBucketLoop name bs

/-- Go `(*Config).GetBucket(name)`; `none` is the `nil` pointer. -/
def Config.GetBucket (c : Config) (name : GoString) : Option BucketConfig :=
  getBucketLoop name c.Buckets

/-- Go `(*Config).ResolveBucket(override)`. -/
def Config.ResolveBucket (c : Config) (override : GoString) : Except GoString GoString :=
  if override ≠ [] then .ok override
  else if c.DefaultBucket ≠ [] then .ok c.DefaultBucket
  else
    match c.Buckets with
    | [b] => .ok b.Name
    | _ => .error ("no bucket specified; use --bucket or set a default with: " ++
        "yelo buckets default <name>").toList

/-- Go `(*Config).ResolveRegion(override, bucket)`. -/
def Config.ResolveRegion (c : Config) (override bucket : GoString) : GoString :=
  if override ≠ [] then override
  else
    match c.GetBucket bucket with
    | some b => if b.Region ≠ [] then b.Region else if c.Region ≠ [] then c.Region else []
    | none => if c.Region ≠ [] then c.Region else []

/-- Go `(*Config).ResolveProfile(override, bucket)`. -/
def Config.ResolveProfile (c : Config) (override bucket : GoString) : GoString :=
  if override ≠ [] then override
  else
    match c.GetBucket bucket with
    | some b => if b.Profile ≠ [] then b.Profile else if c.Profile ≠ [] then c.Profile else []
    | none => if c.Profile ≠ [] then c.Profile else []

end config

/-! ## `cmd/root.go`, `cmd/helpers.go`, `cmd/cd.go` -/

namespace cmd

/-- Go `cmd.parseBucketPath(s)`: `s[:i], s[i+1:]` at the index `i` of the first `':'`,
and `"", s` when there is none. -/
def parseBucketPath (s : GoString) : GoString × GoString :=
  let i := strings.IndexByte s ':'
  if i ≥ 0 then (s.take i.toNat, s.drop (i.toNat + 1)) else ([], s)

/-- Go `cmd.GlobalOpts`. -/
structure GlobalOpts where
  Bucket : GoString
  Region : GoString
  Profile : GoString
  Config : GoString

/-- Go `cmd.Env`. -/
structure Env where
  Cfg : config.Config
  State : state.State
  Opts : GlobalOpts

/-- Go `(*Env).ResolveBucket()`. -/
def Env.ResolveBucket (e : Env) : Except GoString GoString :=
  if e.Opts.Bucket ≠ [] then .ok e.Opts.Bucket
  else if e.State.Bucket ≠ [] then .ok e.State.Bucket
  else e.Cfg.ResolveBucket []

/-- Go `cmd.runCD(env, args)`.  `saveErr` is the result of `env.State.Save()` (`none` for
success).  Returns the environment as the command leaves it and the returned `error`. -/
def runCD (env : Env) (args : List GoString) (saveErr : Option GoString) :
    Env × Option GoString :=
  match args with
  | [] => (env, some "usage: yelo cd <path>".toList)
  | arg0 :: _ =>
    let bp := parseBucketPath arg0
    -- Allow "cd bucket:path" to switch bucket and path at once.
    let st := if bp.1 ≠ [] then env.State.SetBucket bp.1 else env.State
    let target := if bp.1 ≠ [] then (if bp.2 = [] then ['/'] else bp.2) else arg0
    let resolved := state.ResolvePath st.Prefix target
    let pfx :=
      if resolved ≠ [] ∧ !strings.HasSuffix resolved ['/'] then resolved ++ ['/']
      else resolved
    let env1 : Env := { env with State := { st with Prefix := pfx } }
    match saveErr with
    | some err => (env1, some err)
    | none => (env1, none)

/-- A mutation of the navigation state: a `cd` with a target (and any further
arguments, which `runCD` ignores), or a call of `SetBucket`. -/
inductive NavOp
  | cd (target : GoString) (more : List GoString) (saveErr : Option GoString)
  | setBucket (bucket : GoString)

/-- The environment after one navigation mutation. -/
def NavOp.apply (env : Env) : NavOp → Env
  | .cd target more saveErr => (runCD env (target :: more) saveErr).1
  | .setBucket bucket => { env with State := env.State.SetBucket bucket }

/-- The invariant of the navigation prefix: it does not begin with `'/'` and is empty
or ends with `'/'`. -/
def PrefixInvariant (p : GoString) : Prop :=
  strings.HasPrefix p ['/'] = false ∧ (p = [] ∨ strings.HasSuffix p ['/'] = true)

end cmd

/-! ## `internal/aws/glacier.go`: `ParseTier`; `internal/aws/client.go`: `RestoreInput` -/

namespace aws

/-- Go `aws.ParseTier(s)`.  `table` is the Unicode case table behind `strings.ToLower`,
`quote` the rendering of the `%q` verb. -/
def ParseTier (table : Char → Char) (quote : GoString → GoString) (s : GoString) :
    Except GoString Tier :=
  if strings.ToLower table s = "standard".toList then .ok TierStandard
  else if strings.ToLower table s = "bulk".toList then .ok TierBulk
  else if strings.ToLower table s = "expedited".toList then .ok TierExpedited
  else .error ("invalid tier ".toList ++ quote s ++
    "; valid options: Standard, Bulk, Expedited".toList)

/-- Go `aws.RestoreInput`; `Days` is an `int32`. -/
structure RestoreInput where
  Bucket : GoString
  Key : GoString
  Days : Int
  Tier : Tier
  deriving DecidableEq

/-- The Go conversion `int32(x)` of an integer: the value wrapped into
`[-2^31, 2^31)`. -/
def toInt32 (x : Int) : Int := (x + 2147483648) % 4294967296 - 2147483648

end aws

/-! ## `cmd/restore.go` -/

namespace cmd

/-- The places where `runRestore` returns an error before it asks for a restore. -/
inductive RestoreStep
  | parseFlags
  | usage
  | resolveBucket
  | emptyKey
  | parseTier
  | newClient
  | headObject
  | notArchival
  | validateTier
  deriving DecidableEq

/-- What `runRestore` did. -/
inductive RestoreOutcome
  /-- An error was returned at `step`; `RestoreObject` was not called. -/
  | failed (step : RestoreStep) (err : GoString)
  /-- The message was printed and `nil` returned; `RestoreObject` was not called. -/
  | skipped (message : GoString)
  /-- `client.RestoreObject` was called with `input` and returned `err`. -/
  | requested (input : aws.RestoreInput) (err : Option GoString)
  deriving DecidableEq

/-- The error of `runRestore` for a class that is not archival:
`fmt.Errorf("object %q is in %s storage (not Glacier); restore not needed", key,
info.StorageClass)`. -/
def errNotNeeded (quote : GoString → GoString) (key cls : GoString) : GoString :=
  "object ".toList ++ quote key ++ " is in ".toList ++ cls ++
    " storage (not Glacier); restore not needed".toList

/-- Go `cmd.runRestore`, from the point where `client.HeadObject` has returned `info`:
the archival check, the tier check, the status switch and the restore request.
`days` is `*days`, `restoreErr` the result of `client.RestoreObject`. -/
def restoreObject (quote : GoString → GoString) (info : aws.ObjectInfo)
    (bucket key : GoString) (days : Int) (parsedTier : aws.Tier)
    (restoreErr : Option GoString) : RestoreOutcome :=
  if !isGlacierClass info.StorageClass then
    .failed .notArchival (errNotNeeded quote key info.StorageClass)
  else
    match aws.ValidateTier info.StorageClass parsedTier with
    | some err => .failed .validateTier err
    | none =>
      if info.RestoreStatus = "in-progress".toList then
        .skipped ("restore already in progress for ".toList ++ key ++ ['\n'])
      else if info.RestoreStatus = "available".toList then
        .skipped ("object ".toList ++ key ++ " is already restored and available\n".toList)
      else
        .requested
          { Bucket := bucket, Key := key, Days := aws.toInt32 days, Tier := parsedTier }
          restoreErr

/-- Go `cmd.runRestore(env, args)`.  The `flag` package has parsed `args`: `flagErr` is
the result of `fs.Parse`, `days` and `tier` the flag values, `rest` the positional
arguments `fs.Args()`.  `clientErr` is the error of `env.NewS3Client`, `head` the result
of `client.HeadObject`, `restoreErr` that of `client.RestoreObject`. -/
def runRestore (table : Char → Char) (quote : GoString → GoString) (env : Env)
    (flagErr : Option GoString) (days : Int) (tier : GoString) (rest : List GoString)
    (clientErr : Option GoString) (head : Except GoString aws.ObjectInfo)
    (restoreErr : Option GoString) : RestoreOutcome :=
  match flagErr with
  | some err => .failed .parseFlags err
  | none =>
    match rest with
    | [] => .failed .usage "usage: yelo restore [--days N] [--tier TIER] <path>".toList
    | arg0 :: _ =>
      match env.ResolveBucket with
      | .error err => .failed .resolveBucket err
      | .ok bucket =>
        if state.ResolvePath env.State.Prefix arg0 = [] then
          .failed .emptyKey "restore requires an object key".toList
        else
          match aws.ParseTier table quote tier with
          | .error err => .failed .parseTier err
          | .ok parsedTier =>
            match clientErr with
            | some err => .failed .newClient err
            | none =>
              match head with
              | .error err => .failed .headObject err
              | .ok info =>
                restoreObject quote info bucket
                  (state.ResolvePath env.State.Prefix arg0) days parsedTier restoreErr

end cmd

/-! ## `internal/aws/transfer.go` -/

namespace aws

/-- The `error` returned by a `Read`. -/
inductive ReadErr
  /-- The value `nil`. -/
  | nil
  /-- The value `io.EOF`. -/
  | eof
  /-- Any other error. -/
  | failed (msg : GoString)
  deriving DecidableEq

/-- What one iteration of the loop of `Download` receives: the result `(n, readErr)` of
`out.Body.Read(buf)` and the result `(written, writeErr)` of `w.Write(buf[:n])`, which
is only asked for when `n > 0`. -/
structure Chunk where
  n : Nat
  readErr : ReadErr
  written : Nat
  writeErr : Option GoString
  deriving DecidableEq

/-- The I/O actions of a transfer, in the order they happen. -/
inductive IOEvent
  | read (n : Nat) (err : ReadErr)
  | write (written : Nat) (err : Option GoString)
  | progress (bytesTransferred totalBytes : Int)
  deriving DecidableEq

/-- Arithmetic of `int64`: the value wrapped into `[-2^63, 2^63)`. -/
def wrapInt64 (x : Int) : Int :=
  (x + 9223372036854775808) % 18446744073709551616 - 9223372036854775808

/-- A run of `Download`: the actions performed, and the result: `none` while the loop
still waits for a `Read` beyond the given ones, `some none` for `nil`, `some (some err)`
for an error. -/
structure DownloadRun where
  log : List IOEvent
  result : Option (Option GoString)
  deriving DecidableEq

/-- The body of the `if n > 0` block of `Download` for one chunk: the actions, the new
value of `transferred`, and the write error if the block returned. -/
def writeChunk (hasProgress : Bool) (total : Int) (ch : Chunk) (transferred : Int) :
    List IOEvent × Int × Option GoString :=
  if ch.n > 0 then
    match ch.writeErr with
    | some err => ([.read ch.n ch.readErr, .write ch.written (some err)], transferred, some err)
    | none =>
      ([.read ch.n ch.readErr, .write ch.written none] ++
          (if hasProgress then [.progress (wrapInt64 (transferred + ch.written)) total]
           else []),
        wrapInt64 (transferred + ch.written), none)
  else ([.read ch.n ch.readErr], transferred, none)

/-- The loop `for { ... }` of `Download` over the successive results of `Read` and
`Write`; `hasProgress` is `progress != nil`. -/
def downloadLoop (hasProgress : Bool) (total : Int) : List Chunk → Int → DownloadRun
  | [], _ => ⟨[], none⟩
  | ch :: rest, transferred =>
    match (writeChunk hasProgress total ch transferred).2.2 with
    | some err =>
      ⟨(writeChunk hasProgress total ch transferred).1,
        some (some ("writing download data: ".toList ++ err))⟩
    | none =>
      match ch.readErr with
      | .eof => ⟨(writeChunk hasProgress total ch transferred).1, some none⟩
      | .failed err =>
        ⟨(writeChunk hasProgress total ch transferred).1,
          some (some ("reading download stream: ".toList ++ err))⟩
      | .nil =>
        ⟨(writeChunk hasProgress total ch transferred).1 ++
            (downloadLoop hasProgress total rest
              (writeChunk hasProgress total ch transferred).2.1).log,
          (downloadLoop hasProgress total rest
              (writeChunk hasProgress total ch transferred).2.1).result⟩

/-- Go `(*Client).Download`.  `getErr` is the error of `GetObject`, `total` the
`ContentLength` of its output, `chunks` what the reads and writes return. -/
def Download (key : GoString) (getErr : Option GoString) (total : Int)
    (hasProgress : Bool) (chunks : List Chunk) : DownloadRun :=
  match getErr with
  | some err => ⟨[], some (some ("downloading ".toList ++ key ++ ": ".toList ++ err))⟩
  | none => downloadLoop hasProgress total chunks 0

/-- Go `aws.progressReader`, without the wrapped reader `r`, whose results are inputs
of `Read`. -/
structure progressReader where
  total : Int
  transferred : Int
  hasProgress : Bool

/-- Go `(*progressReader).Read(p)` when `pr.r.Read(p)` returns `n` bytes: the reader
afterwards and the progress call made, if any. -/
def progressReader.Read (pr : progressReader) (n : Nat) : progressReader × List IOEvent :=
  ({ pr with transferred := wrapInt64 (pr.transferred + n) },
    if pr.hasProgress ∧ n > 0 then [.progress (wrapInt64 (pr.transferred + n)) pr.total]
    else [])

/-- The actions of a sequence of reads through a `progressReader`, each given by the
result `(n, err)` of the wrapped reader. -/
def progressReader.readAll (pr : progressReader) : List (Nat × ReadErr) → List IOEvent
  | [] => []
  | r :: rest => .read r.1 r.2 :: ((pr.Read r.1).2 ++ readAll (pr.Read r.1).1 rest)

/-- The progress calls of a log, as pairs `(bytesTransferred, totalBytes)`. -/
def progressCalls : List IOEvent → List (Int × Int)
  | [] => []
  | .progress t total :: log => (t, total) :: progressCalls log
  | _ :: log => progressCalls log

/-- The bytes a write reports as written (`0` for other actions). -/
def IOEvent.writtenBytes : IOEvent → Nat
  | .write written _ => written
  | _ => 0

/-- The bytes a read returns (`0` for other actions). -/
def IOEvent.readBytes : IOEvent → Nat
  | .read n _ => n
  | _ => 0

/-- The number of bytes written in a log. -/
def bytesWritten (log : List IOEvent) : Nat := (log.map IOEvent.writtenBytes).sum

/-- The number of bytes read in a log. -/
def bytesRead (log : List IOEvent) : Nat := (log.map IOEvent.readBytes).sum

/-- A chunk that neither ends nor interrupts the transfer: the read returns no error,
and the write, when there is one, succeeds. -/
def Chunk.clean (ch : Chunk) : Bool :=
  ch.readErr = ReadErr.nil ∧ (ch.n = 0 ∨ ch.writeErr = none)

end aws

/-! ## `internal/config/config.go`: `AddBucket`, `RemoveBucket`, `SetDefault` -/

namespace config

/-- The loop of `(*Config).AddBucket`: the buckets with the region and profile of the
first one named `name` overwritten, or `none` when the loop ends without a match. -/
def addBucketLoop (name region profile : GoString) :
    List BucketConfig → Option (List BucketConfig)
  | [] => none
  | b :: bs =>
    if b.Name = name then some ({ b with Region := region, Profile := profile } :: bs)
    else (addBucketLoop name region profile bs).map (fun r => b :: r)

/-- Go `(*Config).AddBucket(name, region, profile)`. -/
def Config.AddBucket (c : Config) (name region profile : GoString) : Config :=
  match addBucketLoop name region profile c.Buckets with
  | some bs => { c with Buckets := bs }
  | none =>
    { c with Buckets := c.Buckets ++ [{ Name := name, Region := region, Profile := profile }] }

/-- The loop of `(*Config).RemoveBucket`: the buckets without the first one named
`name` (`append(c.Buckets[:i], c.Buckets[i+1:]...)`), or `none` when there is none. -/
def removeBucketLoop (name : GoString) : List BucketConfig → Option (List BucketConfig)
  | [] => none
  | b :: bs =>
    if b.Name = name then some bs
    else (removeBucketLoop name bs).map (fun r => b :: r)

/-- Go `(*Config).RemoveBucket(name)`: the config afterwards and the returned `bool`. -/
def Config.RemoveBucket (c : Config) (name : GoString) : Config × Bool :=
  match removeBucketLoop name c.Buckets with
  | some bs =>
    ({ c with
        Buckets := bs,
        DefaultBucket := if c.DefaultBucket = name then [] else c.DefaultBucket }, true)
  | none => (c, false)

/-- Go `(*Config).SetDefault(name)`: the config afterwards and the returned `error`.
The loop looks for the first bucket named `name`, as the loop of `GetBucket` does;
`quote` is the rendering of the `%q` verb. -/
def Config.SetDefault (quote : GoString → GoString) (c : Config) (name : GoString) :
    Config × Option GoString :=
  match getBucketLoop name c.Buckets with
  | some _ => ({ c with DefaultBucket := name }, none)
  | none =>
    (c, some ("bucket ".toList ++ quote name ++
      " not configured; add it first with: yelo buckets add ".toList ++ name))

/-- The default bucket is valid: it is empty or the name of a configured bucket. -/
def DefaultValid (c : Config) : Prop :=
  c.DefaultBucket = [] ∨ ∃ b ∈ c.Buckets, b.Name = c.DefaultBucket

end config

/-! ## `internal/aws/client.go`: `HeadObject` -/

namespace aws

/-- The fields of the SDK's `s3.HeadObjectOutput` that `HeadObject` reads; `none` is a
`nil` pointer.  `LastModified` is the time already formatted with the layout
`2006-01-02T15:04:05Z`. -/
structure HeadObjectOutput where
  ContentLength : Option Int
  StorageClass : GoString
  ContentType : Option GoString
  ETag : Option GoString
  LastModified : Option GoString
  Restore : Option GoString

/-- Go `(*Client).HeadObject(ctx, bucket, key)`; `out` is the result of the SDK call
`c.svc.HeadObject`. -/
def HeadObject (key : GoString) (out : Except GoString HeadObjectOutput) :
    Except GoString ObjectInfo :=
  match out with
  | .error err => .error ("head object: ".toList ++ err)
  | .ok o =>
    .ok { Key := key,
          Size := o.ContentLength.getD 0,
          StorageClass := if o.StorageClass = [] then "STANDARD".toList else o.StorageClass,
          ContentType := o.ContentType.getD [],
          ETag := o.ETag.getD [],
          LastModified := o.LastModified.getD [],
          RestoreStatus :=
            match o.Restore with
            | some header => ParseRestoreHeader header
            | none => [],
          IsPrefix := false }

end aws

/-! ## Definitions used in the proofs -/

namespace path

/-- The buffer of `Clean` (last byte first) that holds the kept segments `stack`
(most recently kept first), each preceded by `'/'`. -/
def flat : List GoString → List Char
  | [] => []
  | k :: stack => k.reverse ++ '/' :: flat stack

/-- The buffer of `Clean` on a rooted path after the segments `stack` were kept:
the single `'/'` for the root, otherwise every kept segment preceded by `'/'`. -/
def rootedBuf (stack : List GoString) : List Char :=
  if stack = [] then ['/'] else flat stack

end path

namespace spec

/-- The segments a scan keeps: not empty, without `'/'`, and neither `.` nor `..`. -/
def Kept (stack : List GoString) : Prop :=
  ∀ k ∈ stack, k ≠ [] ∧ '/' ∉ k ∧ k ≠ ['.'] ∧ k ≠ ['.', '.']

end spec

namespace aws

/-- Every progress call of the log reports `t0` plus the bytes that `count` finds in the
actions before it, together with `total`. -/
def LogOk (count : IOEvent → Nat) (total : Int) : Int → List IOEvent → Prop
  | _, [] => True
  | t0, e :: log =>
    (∀ t tot, e = IOEvent.progress t tot → t = t0 ∧ tot = total)
      ∧ LogOk count total (t0 + count e) log

end aws

/-! # Theorems -/

/-! ## Segments -/

namespace spec

theorem segments_ne_nil (p : GoString) : segments p ≠ [] := by
  cases p with
  | nil => simp [segments]
  | cons c cs => by_cases h : c = '/' <;> simp [segments, h]

theorem segments_slash_cons (r : GoString) : segments ('/' :: r) = [] :: segments r := by
  simp [segments]

theorem segments_append (a b : GoString) :
    segments (a ++ '/' :: b) = segments a ++ segments b := by
  induction a with
  | nil => simp [segments]
  | cons c a ih =>
    by_cases h : c = '/'
    · simp [segments, h, ih]
    · have hne := segments_ne_nil a
      cases hs : segments a with
      | nil => exact absurd hs hne
      | cons x xs => simp [segments, h, ih, hs]

theorem segments_of_no_slash (s : GoString) (h : '/' ∉ s) : segments s = [s] := by
  induction s with
  | nil => simp [segments]
  | cons c s ih =>
    have hc : c ≠ '/' := fun e => h (by simp [e])
    have hs : '/' ∉ s := fun e => h (by simp [e])
    simp [segments, hc, ih hs]

theorem segments_split (s r : GoString) (h : '/' ∉ s) :
    segments (s ++ '/' :: r) = s :: segments r := by
  rw [segments_append, segments_of_no_slash s h]; rfl

theorem no_slash_of_mem_segments (p s : GoString) (h : s ∈ segments p) : '/' ∉ s := by
  induction p generalizing s with
  | nil => simp [segments] at h; simp [h]
  | cons c cs ih =>
    by_cases hc : c = '/'
    · simp only [segments, hc, if_true, List.mem_cons] at h
      rcases h with h | h
      · simp [h]
      · exact ih s h
    · have hne := segments_ne_nil cs
      cases hs : segments cs with
      | nil => exact absurd hs hne
      | cons x xs =>
        simp only [segments, hc, if_false, hs, List.headD_cons, List.tail_cons,
          List.mem_cons] at h
        rcases h with h | h
        · have hx : '/' ∉ x := ih x (by simp [hs])
          subst h
          intro hm
          rcases List.mem_cons.1 hm with e | e
          · exact hc e.symm
          · exact hx e
        · exact ih s (by simp [hs, h])

/-- Every string is a `'/'`-free segment followed by the end or by a `'/'`. -/
theorem exists_first_segment (l : GoString) :
    ∃ s rem, l = s ++ rem ∧ '/' ∉ s ∧ path.atElemEnd rem = true := by
  induction l with
  | nil => exact ⟨[], [], rfl, by simp, rfl⟩
  | cons c l ih =>
    by_cases hc : c = '/'
    · exact ⟨[], c :: l, rfl, by simp, by simp [path.atElemEnd, hc]⟩
    · obtain ⟨s, rem, hl, hs, hr⟩ := ih
      refine ⟨c :: s, rem, by simp [hl], ?_, hr⟩
      intro hm
      rcases List.mem_cons.1 hm with e | e
      · exact hc e.symm
      · exact hs e

theorem scanStep_nil (st : List GoString) : scanStep st [] = st := by
  simp [scanStep]

/-- Scanning the segments of `s ++ rem`, where `s` is a whole first segment, is scanning
`s` and then the segments of `rem`. -/
theorem foldl_segments_split (st : List GoString) (s rem : GoString) (hs : '/' ∉ s)
    (hr : path.atElemEnd rem = true) :
    (segments (s ++ rem)).foldl scanStep st = (segments rem).foldl scanStep (scanStep st s) := by
  cases rem with
  | nil => simp [segments_of_no_slash s hs, segments, scanStep_nil]
  | cons c r =>
    have hc : c = '/' := by simpa [path.atElemEnd] using hr
    subst hc
    rw [segments_split s r hs, segments_slash_cons]
    simp [scanStep_nil]

end spec

/-! ## `path.Clean` on rooted paths -/

namespace path

open spec

theorem cleanLoop_nil (rooted : Bool) (fuel : Nat) (out : List Char) (d : Nat) :
    cleanLoop rooted fuel [] out d = out := by
  cases fuel <;> rfl

theorem copyElem_segment (s rem out : List Char) (hs : '/' ∉ s)
    (hr : atElemEnd rem = true) : copyElem (s ++ rem) out = (rem, s.reverse ++ out) := by
  induction s generalizing out with
  | nil =>
    cases rem with
    | nil => rfl
    | cons c r =>
      have hc : c = '/' := by simpa [atElemEnd] using hr
      simp [copyElem, hc]
  | cons c s ih =>
    have hc : c ≠ '/' := fun e => hs (by simp [e])
    have hs1 : '/' ∉ s := fun e => hs (by simp [e])
    simp [copyElem, hc, ih _ hs1]

theorem flat_ne_nil (k : GoString) (st : List GoString) : flat (k :: st) ≠ [] := by
  simp [flat]

theorem flat_length_pos (st : List GoString) (h : st ≠ []) : 0 < (flat st).length := by
  cases st with
  | nil => exact absurd rfl h
  | cons k st => simp [flat]

theorem backtrack_segment (l : List Char) (st : List GoString) (hl : l ≠ [])
    (hs : '/' ∉ l) : backtrack 1 (l ++ '/' :: flat st) = rootedBuf st := by
  induction l with
  | nil => exact absurd rfl hl
  | cons c l ih =>
    have hc : c ≠ '/' := fun e => hs (by simp [e])
    have hs1 : '/' ∉ l := fun e => hs (by simp [e])
    cases l with
    | nil =>
      cases st with
      | nil => simp [backtrack, flat, rootedBuf]
      | cons k st =>
        have hpos := flat_length_pos (k :: st) (by simp)
        have h1 : ('/' :: flat (k :: st)).length > 1 := by
          simp only [List.length_cons]; omega
        show backtrack 1 (c :: '/' :: flat (k :: st)) = rootedBuf (k :: st)
        rw [backtrack, if_pos ⟨h1, hc⟩, backtrack, if_neg (by simp)]
        simp [rootedBuf]
    | cons c2 l2 =>
      have h1 : (c2 :: l2 ++ '/' :: flat st).length > 1 := by simp
      have := ih (by simp) hs1
      rw [List.cons_append, backtrack, if_pos ⟨h1, hc⟩]
      exact this

theorem backtrack_flat (k : GoString) (st : List GoString) (hk : k ≠ [])
    (hs : '/' ∉ k) : backtrack 1 (flat (k :: st)) = rootedBuf st := by
  have := backtrack_segment k.reverse st (by simpa using hk) (by simpa using hs)
  simpa [flat] using this

theorem rootedBuf_length (st : List GoString) (h : Kept st) :
    (rootedBuf st).length = 1 ↔ st = [] := by
  cases st with
  | nil => simp [rootedBuf]
  | cons k st =>
    have hk : k ≠ [] := (h k (by simp)).1
    have : 0 < k.length := List.length_pos.2 hk
    simp only [rootedBuf, flat, List.length_append, List.length_reverse, List.length_cons]
    simp
    omega

theorem atElemEnd_append (s rem : List Char) (hs : '/' ∉ s) (hr : atElemEnd rem = true) :
    atElemEnd (s ++ rem) = true ↔ s = [] := by
  cases s with
  | nil => simp [hr]
  | cons c s =>
    have hc : c ≠ '/' := fun e => hs (by simp [e])
    simp [atElemEnd, hc]

theorem dotdot_test (s rem : List Char) (hs : '/' ∉ s) (hr : atElemEnd rem = true) :
    ((s ++ rem).head? = some '.' ∧ atElemEnd (s ++ rem).tail = true) ↔ s = ['.'] := by
  cases s with
  | nil =>
    cases rem with
    | nil => simp
    | cons c r =>
      have hc : c = '/' := by simpa [atElemEnd] using hr
      simp [hc]
  | cons c s =>
    have hs1 : '/' ∉ s := fun e => hs (by simp [e])
    have := atElemEnd_append s rem hs1 hr
    simp [this]

end path

namespace spec

theorem Kept_nil : Kept [] := by
  intro k hk; simp at hk

theorem Kept_tail (st : List GoString) (h : Kept st) : Kept st.tail := by
  intro k hk
  exact h k (List.mem_of_mem_tail hk)

theorem Kept_scanStep (st : List GoString) (seg : GoString) (h : Kept st)
    (hs : '/' ∉ seg) : Kept (scanStep st seg) := by
  unfold scanStep
  by_cases h1 : seg = [] ∨ seg = ['.']
  · rw [if_pos h1]; exact h
  · rw [if_neg h1]
    by_cases h2 : seg = ['.', '.']
    · rw [if_pos h2]; exact Kept_tail st h
    · rw [if_neg h2]
      intro k hk
      rcases List.mem_cons.1 hk with e | e
      · subst e
        exact ⟨fun e => h1 (Or.inl e), hs, fun e => h1 (Or.inr e), h2⟩
      · exact h k e

theorem Kept_foldl (segs : List GoString) (st : List GoString) (h : Kept st)
    (hs : ∀ s ∈ segs, '/' ∉ s) : Kept (segs.foldl scanStep st) := by
  induction segs generalizing st with
  | nil => exact h
  | cons s segs ih =>
    rw [List.foldl_cons]
    exact ih _ (Kept_scanStep st s h (hs s (by simp))) (fun x hx => hs x (by simp [hx]))

theorem Kept_scan_segments (p : GoString) (st : List GoString) (h : Kept st) :
    Kept ((segments p).foldl scanStep st) :=
  Kept_foldl _ st h (fun s hs => no_slash_of_mem_segments p s hs)

end spec

namespace path

open spec

/-- The loop of `Clean` on a rooted path, started with the buffer of the kept segments
`st` and enough fuel, ends with the buffer of the scan of the remaining segments. -/
theorem cleanLoop_rooted (fuel : Nat) : ∀ (rest : List Char) (st : List GoString),
    rest.length ≤ fuel → Kept st →
    cleanLoop true fuel rest (rootedBuf st) 1
      = rootedBuf ((segments rest).foldl scanStep st) := by
  induction fuel with
  | zero =>
    intro rest st hf _
    have : rest = [] := List.length_eq_zero.1 (by omega)
    subst this
    simp [cleanLoop, segments, scanStep_nil]
  | succ fuel ih =>
    intro rest st hf hk
    cases rest with
    | nil => simp [cleanLoop, segments, scanStep_nil]
    | cons c r =>
      by_cases hc : c = '/'
      · subst hc
        rw [cleanLoop, if_pos rfl, segments_slash_cons, List.foldl_cons, scanStep_nil]
        exact ih r st (by simpa using hf) hk
      · obtain ⟨s, rem, hl, hs, hr⟩ := exists_first_segment (c :: r)
        cases s with
        | nil =>
          exfalso
          rw [List.nil_append] at hl
          rw [← hl] at hr
          exact hc (by simpa [atElemEnd] using hr)
        | cons c1 s1 =>
          have hs1 : '/' ∉ s1 := fun e => hs (by simp [e])
          rw [List.cons_append] at hl
          obtain ⟨e1, e2⟩ := List.cons.inj hl
          subst e1
          subst e2
          have hlen : (s1 ++ rem).length ≤ fuel := by simpa using hf
          have hlen1 : rem.length ≤ fuel := by
            rw [List.length_append] at hlen; omega
          rw [← List.cons_append, foldl_segments_split st (c :: s1) rem hs hr]
          rw [List.cons_append, cleanLoop, if_neg hc]
          have t1 := atElemEnd_append s1 rem hs1 hr
          have t2 := dotdot_test s1 rem hs1 hr
          by_cases hdot : c = '.' ∧ s1 = []
          · -- the segment "."
            obtain ⟨hd, hn⟩ := hdot
            subst hn
            subst hd
            rw [if_pos ⟨rfl, by simpa using hr⟩]
            have : scanStep st ['.'] = st := by simp [scanStep]
            rw [this]
            exact ih _ st (by simpa using hlen1) hk
          · rw [if_neg (fun h => hdot ⟨h.1, t1.1 h.2⟩)]
            by_cases hdd : c = '.' ∧ s1 = ['.']
            · -- the segment ".."
              obtain ⟨hd, hn⟩ := hdd
              subst hn
              subst hd
              rw [if_pos ⟨rfl, by simp, by simpa using hr⟩]
              have hstep : scanStep st ['.', '.'] = st.tail := by simp [scanStep]
              rw [hstep]
              have hlen2 : rem.length ≤ fuel := hlen1
              cases st with
              | nil =>
                have h1 : ¬ ((rootedBuf ([] : List GoString)).length > 1) := by
                  simp [rootedBuf]
                rw [if_neg h1]
                simp only [Bool.not_true, Bool.false_eq_true, if_false]
                exact ih rem [] hlen2 hk
              | cons k st =>
                have hkk := hk k (by simp)
                have h1 : (rootedBuf (k :: st)).length > 1 := by
                  have hpos : 0 < k.length := List.length_pos.2 hkk.1
                  simp [rootedBuf, flat]
                  omega
                rw [if_pos h1]
                have hb : backtrack 1 (rootedBuf (k :: st)) = rootedBuf st := by
                  simpa [rootedBuf] using backtrack_flat k st hkk.1 hkk.2.1
                simp only [List.cons_append, List.nil_append, List.tail_cons]
                rw [hb]
                exact ih rem st hlen2 (Kept_tail (k :: st) hk)
            · -- a real path element
              have hn3 : ¬ (c = '.' ∧ (s1 ++ rem).head? = some '.'
                  ∧ atElemEnd (s1 ++ rem).tail = true) :=
                fun h => hdd ⟨h.1, t2.1 h.2⟩
              rw [if_neg hn3]
              have hstep : scanStep st (c :: s1) = (c :: s1) :: st := by
                unfold scanStep
                have a1 : ¬ (c :: s1 = [] ∨ c :: s1 = ['.']) := by
                  rintro (h | h)
                  · exact List.cons_ne_nil _ _ h
                  · obtain ⟨h1, h2⟩ := List.cons.inj h
                    exact hdot ⟨h1, h2⟩
                have a2 : ¬ (c :: s1 = ['.', '.']) := by
                  intro h
                  obtain ⟨h1, h2⟩ := List.cons.inj h
                  exact hdd ⟨h1, h2⟩
                rw [if_neg a1, if_neg a2]
              rw [hstep]
              have hcopy : ∀ out, copyElem (c :: (s1 ++ rem)) out
                  = (rem, (c :: s1).reverse ++ out) := by
                intro out
                rw [← List.cons_append]
                exact copyElem_segment (c :: s1) rem out hs hr
              simp only [hcopy]
              have hkept : Kept ((c :: s1) :: st) := by
                rw [← hstep]; exact Kept_scanStep st (c :: s1) hk hs
              have hbuf : (c :: s1).reverse ++
                  (if (true && (rootedBuf st).length != 1) || (!true && (rootedBuf st).length != 0)
                    then '/' :: rootedBuf st else rootedBuf st)
                  = rootedBuf ((c :: s1) :: st) := by
                cases st with
                | nil => simp [rootedBuf, flat]
                | cons k st =>
                  have hne : (rootedBuf (k :: st)).length ≠ 1 := by
                    intro h
                    have := (rootedBuf_length (k :: st) hk).1 h
                    exact List.cons_ne_nil _ _ this
                  simp [hne]
                  simp [rootedBuf, flat]
              rw [hbuf]
              exact ih rem _ hlen1 hkept

end path

/-! ## Joining segments -/

namespace spec

theorem joinSegments_nil : joinSegments [] = [] := rfl

theorem joinSegments_singleton (k : GoString) : joinSegments [k] = k := by
  simp [joinSegments, List.intercalate]

theorem joinSegments_cons_cons (k k2 : GoString) (ks : List GoString) :
    joinSegments (k :: k2 :: ks) = k ++ '/' :: joinSegments (k2 :: ks) := by
  simp [joinSegments, List.intercalate]

theorem joinSegments_concat (ks : List GoString) (k : GoString) (h : ks ≠ []) :
    joinSegments (ks ++ [k]) = joinSegments ks ++ '/' :: k := by
  induction ks with
  | nil => exact absurd rfl h
  | cons a ks ih =>
    cases ks with
    | nil => simp [joinSegments_cons_cons, joinSegments_singleton]
    | cons b ks =>
      have := ih (by simp)
      rw [List.cons_append, List.cons_append, joinSegments_cons_cons, ← List.cons_append,
        this, joinSegments_cons_cons]
      simp

end spec

namespace path

open spec

theorem flat_reverse (st : List GoString) (h : st ≠ []) :
    (flat st).reverse = '/' :: joinSegments st.reverse := by
  induction st with
  | nil => exact absurd rfl h
  | cons k st ih =>
    cases st with
    | nil => simp [flat, joinSegments_singleton]
    | cons k2 st =>
      have := ih (by simp)
      rw [flat, List.reverse_append, List.reverse_cons, this, List.reverse_reverse,
        List.reverse_cons (a := k), joinSegments_concat _ _ (by simp)]
      simp

theorem rootedBuf_reverse (st : List GoString) :
    (rootedBuf st).reverse = '/' :: joinSegments st.reverse := by
  cases st with
  | nil => simp [rootedBuf, joinSegments_nil]
  | cons k st => simpa [rootedBuf] using flat_reverse (k :: st) (by simp)

theorem rootedBuf_ne_nil (st : List GoString) : rootedBuf st ≠ [] := by
  cases st with
  | nil => simp [rootedBuf]
  | cons k st => simpa [rootedBuf] using flat_ne_nil k st

/-- The result of `path.Clean` on a rooted path: `'/'` followed by the kept segments
joined by `'/'`. -/
theorem Clean_rooted (r : GoString) :
    Clean ('/' :: r) = '/' :: joinSegments (normalise (segments r)) := by
  have hloop := cleanLoop_rooted (r.length + 1) r [] (by omega) Kept_nil
  have hroot : rootedBuf ([] : List GoString) = ['/'] := by simp [rootedBuf]
  rw [hroot] at hloop
  unfold Clean
  simp only [List.cons_ne_nil, if_false, List.head?_cons, decide_True, if_true,
    List.tail_cons, List.length_cons]
  rw [hloop]
  have hne := rootedBuf_ne_nil ((segments r).foldl scanStep [])
  have hlen : ¬ ((rootedBuf ((segments r).foldl scanStep [])).length = 0) := by
    intro h
    exact hne (List.length_eq_zero.1 h)
  rw [if_neg hlen, rootedBuf_reverse]
  rfl

end path

/-! ## Scanning an already normalised path -/

namespace spec

theorem Kept_reverse (st : List GoString) (h : Kept st) : Kept st.reverse := by
  intro k hk
  exact h k (List.mem_reverse.1 hk)

theorem Kept_normalise (segs : List GoString) (h : ∀ s ∈ segs, '/' ∉ s) :
    Kept (normalise segs) :=
  Kept_reverse _ (Kept_foldl segs [] Kept_nil h)

theorem segments_joinSegments (ks : List GoString) (hne : ks ≠ [])
    (h : ∀ k ∈ ks, '/' ∉ k) : segments (joinSegments ks) = ks := by
  induction ks with
  | nil => exact absurd rfl hne
  | cons k ks ih =>
    cases ks with
    | nil => rw [joinSegments_singleton]; exact segments_of_no_slash k (h k (by simp))
    | cons k2 ks =>
      rw [joinSegments_cons_cons, segments_split _ _ (h k (by simp)),
        ih (by simp) (fun x hx => h x (by simp [hx]))]

theorem foldl_scanStep_kept (ks st : List GoString) (h : Kept ks) :
    ks.foldl scanStep st = ks.reverse ++ st := by
  induction ks generalizing st with
  | nil => rfl
  | cons k ks ih =>
    have hk := h k (by simp)
    have hstep : scanStep st k = k :: st := by
      unfold scanStep
      rw [if_neg (by rintro (e | e); exact hk.1 e; exact hk.2.2.1 e), if_neg hk.2.2.2]
    rw [List.foldl_cons, hstep, ih _ (fun x hx => h x (by simp [hx]))]
    simp

/-- Scanning the segments of a joined list of kept segments pushes them all back. -/
theorem scan_joinSegments (ks st : List GoString) (h : Kept ks) :
    (segments (joinSegments ks)).foldl scanStep st = ks.reverse ++ st := by
  cases ks with
  | nil => simp [joinSegments_nil, segments, scanStep_nil]
  | cons k ks =>
    rw [segments_joinSegments (k :: ks) (by simp) (fun x hx => (h x hx).2.1)]
    exact foldl_scanStep_kept _ st h

theorem normalise_joinSegments (ks : List GoString) (h : Kept ks) :
    normalise (segments (joinSegments ks)) = ks := by
  unfold normalise
  rw [scan_joinSegments ks [] h]
  simp

theorem joinSegments_ne_dot (ks : List GoString) (h : Kept ks) : joinSegments ks ≠ ['.'] := by
  cases ks with
  | nil => simp [joinSegments_nil]
  | cons k ks =>
    have hk := h k (by simp)
    cases ks with
    | nil => rw [joinSegments_singleton]; exact hk.2.2.1
    | cons k2 ks =>
      rw [joinSegments_cons_cons]
      intro e
      cases k with
      | nil => exact hk.1 rfl
      | cons c k =>
        rw [List.cons_append] at e
        have := (List.cons.inj e).2
        simp at this

theorem joinSegments_head (ks : List GoString) (h : Kept ks) :
    (joinSegments ks).head? ≠ some '/' := by
  cases ks with
  | nil => simp [joinSegments_nil]
  | cons k ks =>
    have hk := h k (by simp)
    have hhead : ∀ tl : List Char, (k ++ tl).head? ≠ some '/' := by
      intro tl
      cases k with
      | nil => exact absurd rfl hk.1
      | cons c k =>
        intro e
        have hc : c = '/' := by simpa using e
        exact hk.2.1 (by simp [hc])
    cases ks with
    | nil => rw [joinSegments_singleton]; simpa using hhead []
    | cons k2 ks => rw [joinSegments_cons_cons]; exact hhead _

theorem joinSegments_getLast (ks : List GoString) (h : Kept ks) :
    (joinSegments ks).getLast? ≠ some '/' := by
  rcases List.eq_nil_or_concat ks with e | ⟨init, k, e⟩
  · subst e; simp [joinSegments_nil]
  · rw [List.concat_eq_append] at e
    subst e
    have hk := h k (by simp)
    have hlast : ∀ hd : List Char, (hd ++ k).getLast? ≠ some '/' := by
      intro hd e
      rw [List.getLast?_append_of_ne_nil _ hk.1] at e
      exact hk.2.1 (List.mem_of_getLast?_eq_some e)
    cases init with
    | nil => simpa [joinSegments_singleton] using hlast []
    | cons a init =>
      rw [joinSegments_concat (a :: init) k (by simp)]
      have := hlast (joinSegments (a :: init) ++ ['/'])
      simpa using this

theorem joinSegments_eq_nil (ks : List GoString) (h : Kept ks) :
    joinSegments ks = [] ↔ ks = [] := by
  constructor
  · intro e
    cases ks with
    | nil => rfl
    | cons k ks =>
      have hk := h k (by simp)
      cases ks with
      | nil => rw [joinSegments_singleton] at e; exact absurd e hk.1
      | cons k2 ks => rw [joinSegments_cons_cons] at e; simp at e
  · intro e; subst e; rfl

end spec

/-! ## `ResolvePath` as a scan of segments -/

namespace state

open spec

theorem normalise_nil_cons (segs : List GoString) : normalise ([] :: segs) = normalise segs := by
  simp [normalise, scanStep_nil]

theorem no_slash_of_mem_append (c t s : GoString) (h : s ∈ segments c ++ segments t) :
    '/' ∉ s := by
  rcases List.mem_append.1 h with h | h
  · exact no_slash_of_mem_segments c s h
  · exact no_slash_of_mem_segments t s h

/-- The segments `ResolvePath` scans: those of an absolute target alone, otherwise those
of the current prefix followed by those of the target. -/
theorem scanned_no_slash (c t s : GoString)
    (h : s ∈ (if t.head? = some '/' then segments t else segments c ++ segments t)) :
    '/' ∉ s := by
  by_cases ht : t.head? = some '/'
  · rw [if_pos ht] at h; exact no_slash_of_mem_segments t s h
  · rw [if_neg ht] at h; exact no_slash_of_mem_append c t s h

/-- The tail of `ResolvePath` (clean, strip the leading slash, map `.` to the empty
string) on a rooted path. -/
theorem resolve_rooted (r : GoString) :
    (if strings.TrimPrefix (path.Clean ('/' :: r)) ['/'] = ['.'] then []
      else strings.TrimPrefix (path.Clean ('/' :: r)) ['/'])
      = joinSegments (normalise (segments r)) := by
  have hk : Kept (normalise (segments r)) :=
    Kept_normalise _ (fun s hs => no_slash_of_mem_segments r s hs)
  rw [path.Clean_rooted]
  have ht : strings.TrimPrefix ('/' :: joinSegments (normalise (segments r))) ['/']
      = joinSegments (normalise (segments r)) := by
    simp [strings.TrimPrefix, strings.HasPrefix]
  rw [ht, if_neg (joinSegments_ne_dot _ hk)]

theorem Join_root (c t : GoString) :
    path.Join [['/'], c, t] = path.Clean ('/' :: '/' :: (c ++ '/' :: t)) := by
  simp [path.Join]

/-- `ResolvePath` computes the scan of the segments of its arguments. -/
theorem ResolvePath_scan (c t : GoString) :
    ResolvePath c t = joinSegments (normalise
      (if t.head? = some '/' then segments t else segments c ++ segments t)) := by
  unfold ResolvePath
  by_cases ht : t.head? = some '/'
  · cases t with
    | nil => simp at ht
    | cons a r =>
      have ha : a = '/' := by simpa using ht
      subst ha
      have hp : strings.HasPrefix ('/' :: r) ['/'] = true := by
        simp [strings.HasPrefix]
      simp only [hp, if_true]
      rw [resolve_rooted r, if_pos ht, segments_slash_cons, normalise_nil_cons]
  · have hp : strings.HasPrefix t ['/'] = false := by
      cases t with
      | nil => simp [strings.HasPrefix, List.isPrefixOf]
      | cons a r =>
        have ha : a ≠ '/' := fun e => ht (by simp [e])
        simp [strings.HasPrefix, List.isPrefixOf, ha.symm]
    simp only [hp, Bool.false_eq_true, if_false]
    rw [if_neg ht, Join_root, path.Clean_rooted, segments_slash_cons, normalise_nil_cons,
      segments_append]
    have hk : Kept (normalise (segments c ++ segments t)) :=
      Kept_normalise _ (fun s hs => no_slash_of_mem_append c t s hs)
    rw [resolve_rooted, normalise_joinSegments _ hk]

/-- The segments of a result of `ResolvePath` are kept segments. -/
theorem ResolvePath_kept (c t : GoString) :
    ∃ ks, Kept ks ∧ ResolvePath c t = joinSegments ks :=
  ⟨_, Kept_normalise _ (fun s hs => scanned_no_slash c t s hs), ResolvePath_scan c t⟩

end state

/-! ## Shape of resolved paths -/

namespace state

open spec

theorem hasSuffix_slash_iff (p : GoString) :
    strings.HasSuffix p ['/'] = true ↔ p.getLast? = some '/' := by
  unfold strings.HasSuffix
  rw [List.isSuffixOf_iff_suffix]
  constructor
  · rintro ⟨t, e⟩
    rw [← e]; simp
  · intro h
    rcases List.eq_nil_or_concat p with e | ⟨init, a, e⟩
    · subst e; simp at h
    · rw [List.concat_eq_append] at e
      subst e
      have ha : a = '/' := by simpa using h
      subst ha
      exact ⟨init, rfl⟩

theorem hasPrefix_slash_iff (p : GoString) :
    strings.HasPrefix p ['/'] = true ↔ p.head? = some '/' := by
  unfold strings.HasPrefix
  cases p with
  | nil => simp [List.isPrefixOf]
  | cons a r =>
    simp [List.isPrefixOf]
    exact eq_comm

theorem ResolvePath_no_leading_slash (c t : GoString) :
    strings.HasPrefix (ResolvePath c t) ['/'] = false := by
  obtain ⟨ks, hk, e⟩ := ResolvePath_kept c t
  have h := joinSegments_head ks hk
  rw [← e] at h
  cases hb : strings.HasPrefix (ResolvePath c t) ['/'] with
  | false => rfl
  | true => exact absurd ((hasPrefix_slash_iff _).1 hb) h

theorem ResolvePath_no_trailing_slash (c t : GoString) :
    strings.HasSuffix (ResolvePath c t) ['/'] = false := by
  obtain ⟨ks, hk, e⟩ := ResolvePath_kept c t
  have h := joinSegments_getLast ks hk
  rw [← e] at h
  cases hb : strings.HasSuffix (ResolvePath c t) ['/'] with
  | false => rfl
  | true => exact absurd ((hasSuffix_slash_iff _).1 hb) h

theorem ResolvePath_ne_dot (c t : GoString) : ResolvePath c t ≠ ['.'] := by
  obtain ⟨ks, hk, e⟩ := ResolvePath_kept c t
  rw [e]
  exact joinSegments_ne_dot ks hk

theorem ResolvePrefix_eq (c t : GoString) :
    ResolvePrefix c t = if ResolvePath c t = [] then [] else ResolvePath c t ++ ['/'] := by
  unfold ResolvePrefix
  have h := ResolvePath_no_trailing_slash c t
  by_cases hn : ResolvePath c t = []
  · simp [hn]
  · simp [hn, h]

end state

/-! ## Targets made of `..` segments -/

namespace spec

theorem Kept_drop (st : List GoString) (k : Nat) (h : Kept st) : Kept (st.drop k) := by
  intro s hs
  exact h s (List.mem_of_mem_drop hs)

theorem foldl_scanStep_replicate (k : Nat) (st : List GoString) :
    (List.replicate k ['.', '.']).foldl scanStep st = st.drop k := by
  induction k generalizing st with
  | zero => simp
  | succ k ih =>
    have hstep : scanStep st ['.', '.'] = st.tail := by simp [scanStep]
    rw [List.replicate_succ, List.foldl_cons, hstep, ih]
    simp [List.drop_drop]

theorem scan_dotdots (k : Nat) (st : List GoString) :
    (segments (dotdots k)).foldl scanStep st = st.drop k := by
  cases k with
  | zero => simp [dotdots, joinSegments_nil, segments, scanStep_nil]
  | succ k =>
    unfold dotdots
    rw [segments_joinSegments _ (by simp [List.replicate_succ])
      (by intro s hs; rw [List.eq_of_mem_replicate hs]; decide)]
    exact foldl_scanStep_replicate (k + 1) st

theorem dotdots_head (k : Nat) : (dotdots k).head? ≠ some '/' := by
  cases k with
  | zero => simp [dotdots, joinSegments_nil]
  | succ k =>
    cases k with
    | zero => simp [dotdots, List.replicate_succ, joinSegments_singleton]
    | succ k => simp [dotdots, List.replicate_succ, joinSegments_cons_cons]

/-- The number of non-empty segments of a joined list of kept segments. -/
theorem segmentCount_joinSegments (ks : List GoString) (h : Kept ks) :
    segmentCount (joinSegments ks) = ks.length := by
  unfold segmentCount
  cases ks with
  | nil => simp [joinSegments_nil, segments]
  | cons k ks =>
    rw [segments_joinSegments (k :: ks) (by simp) (fun x hx => (h x hx).2.1)]
    congr 1
    apply List.filter_eq_self.2
    intro s hs
    simpa using (h s hs).1

end spec

namespace state

open spec

/-- Resolving a target of `k` segments `..` drops the last `k` kept segments. -/
theorem ResolvePath_dotdots (x : GoString) (k : Nat) :
    ResolvePath x (dotdots k)
      = joinSegments (((segments x).foldl scanStep []).drop k).reverse := by
  rw [ResolvePath_scan, if_neg (dotdots_head k)]
  unfold normalise
  rw [List.foldl_append, scan_dotdots]

theorem scan_ResolvePath_dotdots (x : GoString) (k : Nat) :
    (segments (ResolvePath x (dotdots k))).foldl scanStep []
      = ((segments x).foldl scanStep []).drop k := by
  rw [ResolvePath_dotdots, scan_joinSegments _ _
    (Kept_reverse _ (Kept_drop _ k (Kept_scan_segments x [] Kept_nil)))]
  simp

theorem scan_iterate_dotdots (x : GoString) (k m : Nat) :
    (segments ((fun y => ResolvePath y (dotdots k))^[m] x)).foldl scanStep []
      = ((segments x).foldl scanStep []).drop (k * m) := by
  induction m with
  | zero => simp
  | succ m ih =>
    rw [Function.iterate_succ_apply', scan_ResolvePath_dotdots, ih, List.drop_drop]
    congr 1

theorem iterate_dotdots_root (c : GoString) (k m : Nat) (hk : 0 < k)
    (hm : ((segments c).foldl scanStep []).length + 1 ≤ m) :
    (fun y => ResolvePath y (dotdots k))^[m] c = [] := by
  obtain ⟨m1, rfl⟩ : ∃ m1, m = m1 + 1 := ⟨m - 1, by omega⟩
  rw [Function.iterate_succ_apply', ResolvePath_dotdots, scan_iterate_dotdots, List.drop_drop]
  have hle : ((segments c).foldl scanStep []).length ≤ k * m1 + k := by
    have : m1 ≤ k * m1 := Nat.le_mul_of_pos_left m1 hk
    omega
  rw [List.drop_eq_nil_of_le hle]
  rfl

theorem ResolvePath_empty_target (c : GoString) :
    ResolvePath c [] = joinSegments ((segments c).foldl scanStep []).reverse := by
  have := ResolvePath_dotdots c 0
  simpa [dotdots, joinSegments_nil] using this

theorem ResolvePath_dotdots_root (c : GoString) (k : Nat)
    (h : segmentCount (ResolvePath c []) ≤ k) : ResolvePath c (dotdots k) = [] := by
  rw [ResolvePath_empty_target, segmentCount_joinSegments _
    (Kept_reverse _ (Kept_scan_segments c [] Kept_nil)), List.length_reverse] at h
  rw [ResolvePath_dotdots, List.drop_eq_nil_of_le h]
  rfl

end state

/-! ## The repository's test tables -/

namespace state

/-- The table of `TestResolvePath` (`internal/state/resolve_test.go`) holds of the
embedding. -/
theorem ResolvePath_test_table :
    ResolvePath "foo/bar".toList "/baz/qux".toList = "baz/qux".toList
      ∧ ResolvePath "foo/bar".toList "/".toList = "".toList
      ∧ ResolvePath "foo/bar".toList "baz".toList = "foo/bar/baz".toList
      ∧ ResolvePath "foo".toList "bar/baz".toList = "foo/bar/baz".toList
      ∧ ResolvePath "foo/bar".toList "..".toList = "foo".toList
      ∧ ResolvePath "foo".toList "..".toList = "".toList
      ∧ ResolvePath "foo".toList "../../..".toList = "".toList
      ∧ ResolvePath "foo".toList ".".toList = "foo".toList
      ∧ ResolvePath "".toList ".".toList = "".toList
      ∧ ResolvePath "".toList "foo/bar".toList = "foo/bar".toList
      ∧ ResolvePath "".toList "".toList = "".toList
      ∧ ResolvePath "foo".toList "bar/".toList = "foo/bar".toList
      ∧ ResolvePath "".toList "/foo/bar/".toList = "foo/bar".toList
      ∧ ResolvePath "a/b/c/d".toList "../..".toList = "a/b".toList := by
  decide

/-- The table of `TestResolvePrefix` holds of the embedding. -/
theorem ResolvePrefix_test_table :
    ResolvePrefix "".toList "foo".toList = "foo/".toList
      ∧ ResolvePrefix "".toList "/".toList = "".toList
      ∧ ResolvePrefix "foo".toList "bar".toList = "foo/bar/".toList
      ∧ ResolvePrefix "foo".toList "..".toList = "".toList
      ∧ ResolvePrefix "".toList "a/b/c".toList = "a/b/c/".toList := by
  decide

end state

/-! ## Contracts of the path resolver -/

namespace state

open spec

/-- Claim C1. Idempotence: for every current prefix `c` and every target `t`, resolving
`"."` against the already resolved path `ResolvePath c t` gives `ResolvePath c t` again. -/
theorem ResolvePath_dot_idempotent (c t : GoString) :
    ResolvePath (ResolvePath c t) ".".toList = ResolvePath c t := by
  obtain ⟨ks, hk, e⟩ := ResolvePath_kept c t
  rw [e, ResolvePath_scan]
  have hd : ¬ (".".toList.head? = some '/') := by decide
  rw [if_neg hd]
  unfold normalise
  rw [List.foldl_append, scan_joinSegments ks [] hk]
  have hs : segments ".".toList = [['.']] := by decide
  rw [hs]
  simp [scanStep]

/-- Claim C2. Refinement: for every current `c` and target `t`, `ResolvePath c t` is the
reference normalisation: the `'/'`-separated segments of `t` alone when `t` starts with
`'/'`, otherwise those of `c` followed by those of `t`, scanned left to right with a
stack (empty and `.` segments skipped, `..` pops the last kept segment or does nothing on
an empty stack, any other segment is pushed), the kept segments joined by `'/'` without a
leading `'/'`. -/
theorem ResolvePath_eq_referenceResolve (c t : GoString) :
    ResolvePath c t = referenceResolve c t := by
  rw [ResolvePath_scan]
  rfl

/-- Claim C3. An absolute target discards the current prefix: for every target `t` that
starts with `'/'` and all current prefixes `c1`, `c2`, `ResolvePath c1 t = ResolvePath c2 t`;
current `foo/bar` with target `/baz/qux` gives `baz/qux`. -/
theorem ResolvePath_absolute (c1 c2 t : GoString) (h : strings.HasPrefix t ['/'] = true) :
    ResolvePath c1 t = ResolvePath c2 t
      ∧ ResolvePath "foo/bar".toList "/baz/qux".toList = "baz/qux".toList := by
  refine ⟨?_, by decide⟩
  have ht := (hasPrefix_slash_iff t).1 h
  rw [ResolvePath_scan, ResolvePath_scan, if_pos ht, if_pos ht]

theorem ResolvePath_absolute_witness :
    strings.HasPrefix "/baz/qux".toList ['/'] = true
      ∧ ResolvePath "foo/bar".toList "/baz/qux".toList = ResolvePath "a/b".toList "/baz/qux".toList
      ∧ ResolvePath "foo/bar".toList "/baz/qux".toList = "baz/qux".toList :=
  ⟨by decide, ResolvePath_absolute "foo/bar".toList "a/b".toList "/baz/qux".toList (by decide)⟩

/-- Claim C4. Root absorption: for every current prefix `c`, iterating
`x ↦ ResolvePath x "../../../../.."` from `c` reaches the empty string after finitely many
steps and stays there, and `ResolvePath "" "../../../../.." = ""`; a target of `k`
segments `..`, with `k` at least the number of segments of the resolved current, resolves
to `""` (the function is total, there is no error); current `foo` with target `../../..`
or `../..` gives `""`. -/
theorem ResolvePath_root_absorption (c : GoString) :
    (∃ n, ∀ m, n ≤ m → (fun x => ResolvePath x "../../../../..".toList)^[m] c = [])
      ∧ ResolvePath [] "../../../../..".toList = []
      ∧ (∀ k, segmentCount (ResolvePath c []) ≤ k → ResolvePath c (dotdots k) = [])
      ∧ ResolvePath "foo".toList "../../..".toList = []
      ∧ ResolvePath "foo".toList "../..".toList = [] := by
  refine ⟨⟨((segments c).foldl scanStep []).length + 1, fun m hm => ?_⟩, by decide,
    fun k hk => ResolvePath_dotdots_root c k hk, by decide, by decide⟩
  have h5 : "../../../../..".toList = dotdots 5 := by decide
  rw [h5]
  exact iterate_dotdots_root c 5 m (by decide) hm

theorem ResolvePath_root_absorption_witness :
    segmentCount (ResolvePath "a/b/../c".toList []) ≤ 2
      ∧ ResolvePath "a/b/../c".toList (dotdots 2) = [] :=
  ⟨by decide, (ResolvePath_root_absorption "a/b/../c".toList).2.2.1 2 (by decide)⟩

/-- Claim C5. Prefix invariant: for every current `c` and target `t`, `ResolvePrefix c t`
is the empty string when `ResolvePath c t` is empty and otherwise `ResolvePath c t`
followed by one `'/'`; so it is either `""` or ends with exactly one `'/'`, never with
`"//"`. -/
theorem ResolvePrefix_shape (c t : GoString) :
    ResolvePrefix c t = (if ResolvePath c t = [] then [] else ResolvePath c t ++ ['/'])
      ∧ (ResolvePrefix c t = []
          ∨ (strings.HasSuffix (ResolvePrefix c t) ['/'] = true
              ∧ strings.HasSuffix (ResolvePrefix c t) ['/', '/'] = false)) := by
  refine ⟨ResolvePrefix_eq c t, ?_⟩
  rw [ResolvePrefix_eq]
  by_cases hn : ResolvePath c t = []
  · left; rw [if_pos hn]
  · right
    rw [if_neg hn]
    have hlast := ResolvePath_no_trailing_slash c t
    refine ⟨by simp [strings.HasSuffix], ?_⟩
    cases hb : strings.HasSuffix (ResolvePath c t ++ ['/']) ['/', '/'] with
    | false => rfl
    | true =>
      exfalso
      unfold strings.HasSuffix at hb
      rw [List.isSuffixOf_iff_suffix] at hb
      obtain ⟨p, hp⟩ := hb
      have e : (p ++ ['/']) ++ ['/'] = ResolvePath c t ++ ['/'] := by simpa using hp
      have e2 := List.append_cancel_right e
      have : strings.HasSuffix (ResolvePath c t) ['/'] = true := by
        rw [← e2]; simp [strings.HasSuffix]
      rw [hlast] at this
      exact Bool.false_ne_true this

/-- Claim C6. Canonical form: for every current `c` and target `t`, `ResolvePath c t`
neither begins nor ends with `'/'` and is never `"."` (nor `"/"`): the root resolves to
the empty string, and a trailing slash of the target is stripped (current `foo` with
target `bar/` gives `foo/bar`). -/
theorem ResolvePath_canonical (c t : GoString) :
    strings.HasPrefix (ResolvePath c t) ['/'] = false
      ∧ strings.HasSuffix (ResolvePath c t) ['/'] = false
      ∧ ResolvePath c t ≠ ".".toList
      ∧ ResolvePath c t ≠ "/".toList
      ∧ ResolvePath "foo/bar".toList "/".toList = []
      ∧ ResolvePath "foo".toList "..".toList = []
      ∧ ResolvePath [] ".".toList = []
      ∧ ResolvePath "foo".toList "bar/".toList = "foo/bar".toList := by
  refine ⟨ResolvePath_no_leading_slash c t, ResolvePath_no_trailing_slash c t,
    ResolvePath_ne_dot c t, ?_, by decide, by decide, by decide, by decide⟩
  intro e
  have h := ResolvePath_no_leading_slash c t
  rw [e] at h
  exact absurd h (by decide)

end state

/-! ## `strings.Contains` -/

namespace strings

/-- `strings.Contains` decides the substring relation. -/
theorem Contains_iff_infix (s substr : GoString) :
    Contains s substr = true ↔ substr <:+: s := by
  induction s with
  | nil =>
    cases substr <;> simp [Contains]
  | cons c s ih =>
    rw [Contains, Bool.or_eq_true, ih, List.isPrefixOf_iff_prefix, List.infix_cons_iff]

end strings

/-! ## The archival gate of `get` -/

namespace cmd

theorem glacierCheck_eq_none (quote : GoString → GoString) (info : aws.ObjectInfo)
    (key arg0 : GoString) :
    glacierCheck quote info key arg0 = none
      ↔ (isGlacierClass info.StorageClass = false
          ∨ info.RestoreStatus = "available".toList) := by
  unfold glacierCheck
  by_cases hc : isGlacierClass info.StorageClass = true
      ∧ info.RestoreStatus ≠ "available".toList
  · rw [if_pos hc]
    have hne : ∀ e : GoString, ¬ (some e = (none : Option GoString)) := fun e h => by cases h
    have hr : ¬ (isGlacierClass info.StorageClass = false
        ∨ info.RestoreStatus = "available".toList) := by
      rintro (h | h)
      · rw [hc.1] at h; exact Bool.noConfusion h
      · exact hc.2 h
    by_cases hp : info.RestoreStatus = "in-progress".toList
    · rw [if_pos hp]; exact ⟨fun h => absurd h (hne _), fun h => absurd h hr⟩
    · rw [if_neg hp]; exact ⟨fun h => absurd h (hne _), fun h => absurd h hr⟩
  · rw [if_neg hc]
    refine ⟨fun _ => ?_, fun _ => rfl⟩
    by_cases hg : isGlacierClass info.StorageClass = true
    · right
      by_contra ha
      exact hc ⟨hg, ha⟩
    · left
      cases h : isGlacierClass info.StorageClass with
      | false => rfl
      | true => exact absurd h hg

theorem errors_differ (quote : GoString → GoString) (key cls1 cls2 arg0 : GoString) :
    errBeingRestored quote key cls1 ≠ errRestoreFirst quote key cls2 arg0 := by
  unfold errBeingRestored errRestoreFirst
  intro e
  simp only [List.append_assoc] at e
  have e1 := List.append_cancel_left e
  have e2 := List.append_cancel_left e1
  have hb : (" is being restored from ".toList ++
      (cls1 ++ " (in progress); try again later".toList)).get? 4 = some 'b' := by
    rfl
  have hi : (" is in ".toList ++ (cls2 ++
      (" storage; restore it first with: yelo restore ".toList ++ arg0))).get? 4
      = some 'i' := by
    rfl
  rw [e2, hi] at hb
  exact absurd hb (by decide)

end cmd

/-! ## Contracts of the restore state machine -/

namespace cmd

/-- The download of `runGet` starts exactly when the archival check passes and the
destination is ready. -/
theorem runGet_downloadStarted_iff (quote : GoString → GoString) (info : aws.ObjectInfo)
    (key arg0 : GoString) (toStdout : Bool) (localPath : GoString)
    (createErr downloadErr : Option GoString) :
    (runGet quote info key arg0 toStdout localPath createErr downloadErr).downloadStarted
        = true
      ↔ ((isGlacierClass info.StorageClass = false
            ∨ info.RestoreStatus = "available".toList)
          ∧ (toStdout = true ∨ createErr = none)) := by
  have hgate := glacierCheck_eq_none quote info key arg0
  unfold runGet
  cases hc : glacierCheck quote info key arg0 with
  | some e =>
    have hno : ¬ (isGlacierClass info.StorageClass = false
        ∨ info.RestoreStatus = "available".toList) := by
      intro h
      have := hgate.2 h
      rw [hc] at this
      cases this
    exact ⟨fun h => Bool.noConfusion h, fun h => absurd h.1 hno⟩
  | none =>
    have hok := hgate.1 hc
    cases toStdout with
    | true => exact ⟨fun _ => ⟨hok, Or.inl rfl⟩, fun _ => rfl⟩
    | false =>
      cases createErr with
      | none => exact ⟨fun _ => ⟨hok, Or.inr rfl⟩, fun _ => rfl⟩
      | some e =>
        refine ⟨fun h => Bool.noConfusion h, fun h => ?_⟩
        rcases h.2 with h2 | h2
        · exact Bool.noConfusion h2
        · cases h2

/-- Whenever `runGet` starts no download it returns an error. -/
theorem runGet_error_of_no_download (quote : GoString → GoString) (info : aws.ObjectInfo)
    (key arg0 : GoString) (toStdout : Bool) (localPath : GoString)
    (createErr downloadErr : Option GoString)
    (h : (runGet quote info key arg0 toStdout localPath createErr downloadErr).downloadStarted
      = false) :
    ∃ err, (runGet quote info key arg0 toStdout localPath createErr downloadErr).error
      = some err := by
  unfold runGet at h ⊢
  cases hc : glacierCheck quote info key arg0 with
  | some e => exact ⟨e, rfl⟩
  | none =>
    rw [hc] at h
    cases toStdout with
    | true => exact Bool.noConfusion h
    | false =>
      cases createErr with
      | none => exact Bool.noConfusion h
      | some e => exact ⟨_, rfl⟩

/-- Counterexample to claim C7 as stated: for an object of class `STANDARD` (not
archival) whose local file cannot be created, `get` passes the archival check, fails in
`os.Create`, returns the "creating" error and starts no download. -/
theorem runGet_create_failed :
    isGlacierClass "STANDARD".toList = false
      ∧ runGet (fun s => '"' :: s ++ ['"'])
          { Key := "a/b".toList, Size := 3, LastModified := [],
            StorageClass := "STANDARD".toList, RestoreStatus := [],
            ContentType := [], ETag := [], IsPrefix := false }
          "a/b".toList "a/b".toList false "/nodir/b".toList
          (some "open /nodir/b: no such file or directory".toList) none
        = .createFailed
            "creating /nodir/b: open /nodir/b: no such file or directory".toList
      ∧ (runGet (fun s => '"' :: s ++ ['"'])
          { Key := "a/b".toList, Size := 3, LastModified := [],
            StorageClass := "STANDARD".toList, RestoreStatus := [],
            ContentType := [], ETag := [], IsPrefix := false }
          "a/b".toList "a/b".toList false "/nodir/b".toList
          (some "open /nodir/b: no such file or directory".toList) none).downloadStarted
        = false := by
  decide

/-- Claim C7, as amended. In the get command, once `HeadObject` has returned the
object's class and restore status, the download proceeds if and only if the class is not
archival (`isGlacierClass` is false: none of `GLACIER`, `DEEP_ARCHIVE`, `GLACIER_IR`) or
the restore status is `available`, and the destination is ready (standard output, or
the local file was created by `os.Create`); in every other case `get` returns an error
and starts no download.  The archival check itself passes exactly on the first
condition, and when it does not pass the error is its refusal.  Class `GLACIER` with
header `ongoing-request="false"` is permitted. -/
theorem runGet_read_gate (quote : GoString → GoString) (info : aws.ObjectInfo)
    (key arg0 : GoString) (toStdout : Bool) (localPath : GoString)
    (createErr downloadErr : Option GoString) :
    (isGlacierClass info.StorageClass = false
        ↔ (info.StorageClass ≠ "GLACIER".toList ∧ info.StorageClass ≠ "DEEP_ARCHIVE".toList
            ∧ info.StorageClass ≠ "GLACIER_IR".toList))
      ∧ ((runGet quote info key arg0 toStdout localPath createErr downloadErr).downloadStarted
            = true
          ↔ ((isGlacierClass info.StorageClass = false
                ∨ info.RestoreStatus = "available".toList)
              ∧ (toStdout = true ∨ createErr = none)))
      ∧ (¬ ((isGlacierClass info.StorageClass = false
                ∨ info.RestoreStatus = "available".toList)
              ∧ (toStdout = true ∨ createErr = none))
          → (∃ err, (runGet quote info key arg0 toStdout localPath createErr downloadErr).error
                = some err)
            ∧ (runGet quote info key arg0 toStdout localPath createErr downloadErr).downloadStarted
                = false)
      ∧ (glacierCheck quote info key arg0 = none
          ↔ (isGlacierClass info.StorageClass = false
              ∨ info.RestoreStatus = "available".toList))
      ∧ (¬ (isGlacierClass info.StorageClass = false
              ∨ info.RestoreStatus = "available".toList)
          → ∃ err, glacierCheck quote info key arg0 = some err
              ∧ runGet quote info key arg0 toStdout localPath createErr downloadErr
                  = .refused err)
      ∧ (info.StorageClass = "GLACIER".toList
          → info.RestoreStatus = aws.headRestoreStatus (some "ongoing-request=\"false\"".toList)
          → glacierCheck quote info key arg0 = none
            ∧ ((toStdout = true ∨ createErr = none) →
                (runGet quote info key arg0 toStdout localPath createErr
                  downloadErr).downloadStarted = true)) := by
  have hgate := glacierCheck_eq_none quote info key arg0
  have hiff := runGet_downloadStarted_iff quote info key arg0 toStdout localPath createErr
    downloadErr
  refine ⟨?_, hiff, ?_, hgate, ?_, ?_⟩
  · unfold isGlacierClass
    rw [decide_eq_false_iff_not]
    constructor
    · intro h
      exact ⟨fun e => h (Or.inl e), fun e => h (Or.inr (Or.inl e)),
        fun e => h (Or.inr (Or.inr e))⟩
    · rintro ⟨h1, h2, h3⟩ (e | e | e)
      · exact h1 e
      · exact h2 e
      · exact h3 e
  · intro hno
    have hf : (runGet quote info key arg0 toStdout localPath createErr
        downloadErr).downloadStarted = false := by
      cases hd : (runGet quote info key arg0 toStdout localPath createErr
          downloadErr).downloadStarted with
      | false => rfl
      | true => exact absurd (hiff.1 hd) hno
    exact ⟨runGet_error_of_no_download quote info key arg0 toStdout localPath createErr
      downloadErr hf, hf⟩
  · intro hno
    cases hc : glacierCheck quote info key arg0 with
    | none => exact absurd (hgate.1 hc) hno
    | some e =>
      refine ⟨e, rfl, ?_⟩
      unfold runGet
      rw [hc]
  · intro hcls hst
    have hav : info.RestoreStatus = "available".toList := by
      rw [hst]
      decide
    exact ⟨hgate.2 (Or.inr hav), fun hdest => hiff.2 ⟨Or.inr hav, hdest⟩⟩

theorem runGet_read_gate_witness :
    (runGet (fun s => '"' :: s ++ ['"'])
        { Key := "a/b".toList, Size := 3, LastModified := [], StorageClass := "GLACIER".toList,
          RestoreStatus := aws.headRestoreStatus (some "ongoing-request=\"false\"".toList),
          ContentType := [], ETag := [], IsPrefix := false }
        "a/b".toList "b".toList false "b".toList none none).downloadStarted = true :=
  ((runGet_read_gate (fun s => '"' :: s ++ ['"'])
      { Key := "a/b".toList, Size := 3, LastModified := [], StorageClass := "GLACIER".toList,
        RestoreStatus := aws.headRestoreStatus (some "ongoing-request=\"false\"".toList),
        ContentType := [], ETag := [], IsPrefix := false }
      "a/b".toList "b".toList false "b".toList none none).2.2.2.2.2 rfl rfl).2 (Or.inr rfl)

/-- Claim C8. When `get` refuses an archival object (archival class, status not
`available`), the error depends on the restore status: `in-progress` gives the
"being restored ... try again later" error, every other status (none, expired) gives the
"restore it first with: yelo restore" error; the two errors differ for every key and
storage class; class `DEEP_ARCHIVE` with no restore header gets "restore it first". -/
theorem runGet_refusal_kinds (quote : GoString → GoString) (info : aws.ObjectInfo)
    (key arg0 : GoString) (toStdout : Bool) (localPath : GoString)
    (createErr downloadErr : Option GoString)
    (harch : isGlacierClass info.StorageClass = true)
    (hna : info.RestoreStatus ≠ "available".toList) :
    (info.RestoreStatus = "in-progress".toList
        → runGet quote info key arg0 toStdout localPath createErr downloadErr
            = .refused (errBeingRestored quote key info.StorageClass))
      ∧ (info.RestoreStatus ≠ "in-progress".toList
        → runGet quote info key arg0 toStdout localPath createErr downloadErr
            = .refused (errRestoreFirst quote key info.StorageClass arg0))
      ∧ (∀ cls1 cls2 a, errBeingRestored quote key cls1 ≠ errRestoreFirst quote key cls2 a)
      ∧ "being restored".toList <:+: errBeingRestored quote key info.StorageClass
      ∧ "try again later".toList <:+: errBeingRestored quote key info.StorageClass
      ∧ "restore it first with: yelo restore".toList
          <:+: errRestoreFirst quote key info.StorageClass arg0
      ∧ (info.StorageClass = "DEEP_ARCHIVE".toList
          → info.RestoreStatus = aws.headRestoreStatus none
          → runGet quote info key arg0 toStdout localPath createErr downloadErr
              = .refused (errRestoreFirst quote key "DEEP_ARCHIVE".toList arg0)) := by
  have hin : info.RestoreStatus = "in-progress".toList
      → runGet quote info key arg0 toStdout localPath createErr downloadErr
          = .refused (errBeingRestored quote key info.StorageClass) := by
    intro hp
    unfold runGet glacierCheck
    rw [if_pos ⟨harch, hna⟩, if_pos hp]
  have hout : info.RestoreStatus ≠ "in-progress".toList
      → runGet quote info key arg0 toStdout localPath createErr downloadErr
          = .refused (errRestoreFirst quote key info.StorageClass arg0) := by
    intro hp
    unfold runGet glacierCheck
    rw [if_pos ⟨harch, hna⟩, if_neg hp]
  refine ⟨hin, hout, fun cls1 cls2 a => errors_differ quote key cls1 cls2 a, ?_, ?_, ?_, ?_⟩
  · exact ⟨"object ".toList ++ quote key ++ " is ".toList,
      " from ".toList ++ info.StorageClass ++ " (in progress); try again later".toList,
      by simp [errBeingRestored]⟩
  · exact ⟨"object ".toList ++ quote key ++ " is being restored from ".toList
        ++ info.StorageClass ++ " (in progress); ".toList, [],
      by simp [errBeingRestored]⟩
  · exact ⟨"object ".toList ++ quote key ++ " is in ".toList ++ info.StorageClass
        ++ " storage; ".toList, ' ' :: arg0, by simp [errRestoreFirst]⟩
  · intro hcls hst
    have hp : info.RestoreStatus ≠ "in-progress".toList := by
      rw [hst]; decide
    rw [hout hp, hcls]

theorem runGet_refusal_kinds_witness :
    runGet id
        { Key := "k".toList, Size := 0, LastModified := [],
          StorageClass := "DEEP_ARCHIVE".toList, RestoreStatus := aws.headRestoreStatus none,
          ContentType := [], ETag := [], IsPrefix := false }
        "k".toList "k".toList true [] none none
      = .refused "object k is in DEEP_ARCHIVE storage; restore it first with: yelo restore k".toList :=
  (runGet_refusal_kinds id
      { Key := "k".toList, Size := 0, LastModified := [],
        StorageClass := "DEEP_ARCHIVE".toList, RestoreStatus := aws.headRestoreStatus none,
        ContentType := [], ETag := [], IsPrefix := false }
      "k".toList "k".toList true [] none none (by decide) (by decide)).2.1 (by decide)

end cmd

namespace aws

/-- Claim C9. For every storage class string and every tier, `ValidateTier` returns an
error if and only if the class is exactly `DEEP_ARCHIVE` and the tier is `Expedited`;
every other combination is accepted, including any tier against the non-archival class
`STANDARD`. -/
theorem ValidateTier_rejects_iff (storageClass : GoString) (tier : Tier) :
    ((∃ err, ValidateTier storageClass tier = some err)
        ↔ (storageClass = "DEEP_ARCHIVE".toList ∧ tier = TierExpedited))
      ∧ (¬ (storageClass = "DEEP_ARCHIVE".toList ∧ tier = TierExpedited)
          → ValidateTier storageClass tier = none)
      ∧ ValidateTier "STANDARD".toList tier = none
      ∧ ValidateTier "DEEP_ARCHIVE".toList TierBulk = none
      ∧ ValidateTier "GLACIER".toList TierExpedited = none := by
  refine ⟨?_, ?_, ?_, by decide, by decide⟩
  · unfold ValidateTier
    by_cases h : storageClass = "DEEP_ARCHIVE".toList ∧ tier = TierExpedited
    · rw [if_pos h]
      exact ⟨fun _ => h, fun _ => ⟨_, rfl⟩⟩
    · rw [if_neg h]
      refine ⟨fun h1 => ?_, fun h2 => absurd h2 h⟩
      obtain ⟨e, he⟩ := h1
      cases he
  · intro h
    unfold ValidateTier
    rw [if_neg h]
  · unfold ValidateTier
    rw [if_neg]
    rintro ⟨h, _⟩
    exact absurd h (by decide)

/-- Claim C10. For every restore header that contains the substring
`ongoing-request="true"`, `ParseRestoreHeader` returns `in-progress`. -/
theorem ParseRestoreHeader_ongoing_true (header : GoString)
    (h : "ongoing-request=\"true\"".toList <:+: header) :
    ParseRestoreHeader header = "in-progress".toList := by
  unfold ParseRestoreHeader
  have hne : header ≠ [] := by
    intro e
    rw [e] at h
    have := List.eq_nil_of_infix_nil h
    exact absurd this (by decide)
  rw [if_neg hne, if_pos ((strings.Contains_iff_infix _ _).2 h)]

theorem ParseRestoreHeader_ongoing_true_witness :
    ParseRestoreHeader "x-amz: ongoing-request=\"true\", ongoing-request=\"false\"".toList
      = "in-progress".toList :=
  ParseRestoreHeader_ongoing_true _
    ⟨"x-amz: ".toList, ", ongoing-request=\"false\"".toList, by decide⟩

end aws

/-! ## Classification of the restore header -/

namespace aws

theorem ParseRestoreHeader_not_true (header : GoString)
    (hn : ¬ "ongoing-request=\"true\"".toList <:+: header) :
    ParseRestoreHeader header
      = if header = [] then []
        else if strings.Contains header "ongoing-request=\"false\"".toList
          then "available".toList else [] := by
  unfold ParseRestoreHeader
  have ht : ¬ (strings.Contains header "ongoing-request=\"true\"".toList = true) :=
    fun h => hn ((strings.Contains_iff_infix _ _).1 h)
  by_cases he : header = []
  · rw [if_pos he, if_pos he]
  · rw [if_neg he, if_neg he, if_neg ht]

/-- Counterexample to claim C11 as stated: a header that contains `ongoing-request="false"`
and, behind it, `ongoing-request="true"` is classified `in-progress`, not `available`,
because the test for `true` comes first. -/
theorem ParseRestoreHeader_false_and_true :
    "ongoing-request=\"false\"".toList
        <:+: "ongoing-request=\"false\", ongoing-request=\"true\"".toList
      ∧ ParseRestoreHeader "ongoing-request=\"false\", ongoing-request=\"true\"".toList
          ≠ "available".toList :=
  ⟨⟨[], ", ongoing-request=\"true\"".toList, by decide⟩, by decide⟩

/-- Claim C11, as amended. For every restore header that contains the substring
`ongoing-request="false"` and does not contain `ongoing-request="true"`,
`ParseRestoreHeader` returns `available`, whatever other text (an expiry-date
annotation or none) the header carries. -/
theorem ParseRestoreHeader_ongoing_false (header : GoString)
    (h : "ongoing-request=\"false\"".toList <:+: header)
    (hn : ¬ "ongoing-request=\"true\"".toList <:+: header) :
    ParseRestoreHeader header = "available".toList := by
  rw [ParseRestoreHeader_not_true header hn]
  have hne : header ≠ [] := by
    intro e
    rw [e] at h
    exact absurd (List.eq_nil_of_infix_nil h) (by decide)
  rw [if_neg hne, if_pos ((strings.Contains_iff_infix _ _).2 h)]

theorem ParseRestoreHeader_ongoing_false_witness :
    ParseRestoreHeader
        "ongoing-request=\"false\", expiry-date=\"Fri, 23 Dec 2022 00:00:00 GMT\"".toList
      = "available".toList :=
  ParseRestoreHeader_ongoing_false _
    ⟨[], ", expiry-date=\"Fri, 23 Dec 2022 00:00:00 GMT\"".toList, by decide⟩
    (fun h => absurd ((strings.Contains_iff_infix _ _).2 h) (by decide))

/-- Claim C12. For every restore header that is empty or contains neither
`ongoing-request="true"` nor `ongoing-request="false"`, `ParseRestoreHeader` returns the
empty status; the parse is a total function with no error result, so an unknown format
(`something-else`) degrades to the empty status. -/
theorem ParseRestoreHeader_unrecognized (header : GoString)
    (h : header = []
      ∨ (¬ "ongoing-request=\"true\"".toList <:+: header
          ∧ ¬ "ongoing-request=\"false\"".toList <:+: header)) :
    ParseRestoreHeader header = []
      ∧ ParseRestoreHeader "something-else".toList = [] := by
  refine ⟨?_, by decide⟩
  rcases h with h | ⟨ht, hf⟩
  · subst h; rfl
  · rw [ParseRestoreHeader_not_true header ht]
    have hc : ¬ (strings.Contains header "ongoing-request=\"false\"".toList = true) :=
      fun h => hf ((strings.Contains_iff_infix _ _).1 h)
    by_cases he : header = []
    · rw [if_pos he]
    · rw [if_neg he, if_neg hc]

theorem ParseRestoreHeader_unrecognized_witness :
    ParseRestoreHeader "expiry-date=\"Fri, 23 Dec 2022 00:00:00 GMT\"".toList = [] :=
  (ParseRestoreHeader_unrecognized
    "expiry-date=\"Fri, 23 Dec 2022 00:00:00 GMT\"".toList
    (Or.inr ⟨fun h => absurd ((strings.Contains_iff_infix _ _).2 h) (by decide),
      fun h => absurd ((strings.Contains_iff_infix _ _).2 h) (by decide)⟩)).1

end aws

/-! ## `strings.IndexByte` and `parseBucketPath` -/

namespace strings

theorem IndexByte_ge (s : GoString) (c : Char) : -1 ≤ IndexByte s c := by
  induction s with
  | nil => simp [IndexByte]
  | cons x s ih =>
    unfold IndexByte
    split_ifs <;> omega

theorem IndexByte_nonneg_iff (s : GoString) (c : Char) : 0 ≤ IndexByte s c ↔ c ∈ s := by
  induction s with
  | nil => simp [IndexByte]
  | cons x s ih =>
    unfold IndexByte
    by_cases hx : x = c
    · simp [hx]
    · rw [if_neg hx]
      have hcx : ¬ c = x := fun e => hx e.symm
      by_cases hi : IndexByte s c < 0
      · rw [if_pos hi]
        have : ¬ c ∈ s := fun hm => by have := ih.2 hm; omega
        simp [hcx, this]
      · rw [if_neg hi]
        have : c ∈ s := ih.1 (by omega)
        simp [this]
        omega

/-- The index found by `IndexByte` is that of the first occurrence. -/
theorem IndexByte_split (s : GoString) (c : Char) (h : c ∈ s) :
    s.take (IndexByte s c).toNat ++ c :: s.drop ((IndexByte s c).toNat + 1) = s
      ∧ c ∉ s.take (IndexByte s c).toNat := by
  induction s with
  | nil => simp at h
  | cons x s ih =>
    unfold IndexByte
    by_cases hx : x = c
    · subst hx; simp
    · rw [if_neg hx]
      have hm : c ∈ s := by
        rcases List.mem_cons.1 h with e | e
        · exact absurd e.symm hx
        · exact e
      have hi : ¬ IndexByte s c < 0 := by
        have := (IndexByte_nonneg_iff s c).2 hm; omega
      rw [if_neg hi]
      have hnat : (IndexByte s c + 1).toNat = (IndexByte s c).toNat + 1 := by omega
      obtain ⟨h1, h2⟩ := ih hm
      rw [hnat]
      refine ⟨by simpa using h1, ?_⟩
      intro hmem
      rw [List.take_succ_cons] at hmem
      rcases List.mem_cons.1 hmem with e | e
      · exact hx e.symm
      · exact h2 e

end strings

namespace cmd

/-- Claim C20. `parseBucketPath` splits at the first colon: for every `s` that contains
`':'` it returns `(bucket, path)` with `bucket ++ ":" ++ path = s` and no `':'` in
`bucket` (so `bucket` is the text before the first colon); for every `s` without `':'`
it returns the empty bucket and `s` unchanged. -/
theorem parseBucketPath_first_colon (s : GoString) :
    (':' ∈ s →
        (parseBucketPath s).1 ++ ':' :: (parseBucketPath s).2 = s
          ∧ ':' ∉ (parseBucketPath s).1)
      ∧ (':' ∉ s → parseBucketPath s = ([], s))
      ∧ parseBucketPath "bucket:path:with:colons".toList
          = ("bucket".toList, "path:with:colons".toList) := by
  refine ⟨fun h => ?_, fun h => ?_, by decide⟩
  · have hi : strings.IndexByte s ':' ≥ 0 := (strings.IndexByte_nonneg_iff s ':').2 h
    unfold parseBucketPath
    simp only [hi, if_true]
    exact strings.IndexByte_split s ':' h
  · have hi : ¬ (strings.IndexByte s ':' ≥ 0) :=
      fun hge => h ((strings.IndexByte_nonneg_iff s ':').1 hge)
    unfold parseBucketPath
    simp only [hi, if_false]

theorem parseBucketPath_first_colon_witness :
    (parseBucketPath ":a:b".toList).1 ++ ':' :: (parseBucketPath ":a:b".toList).2
        = ":a:b".toList
      ∧ ':' ∉ (parseBucketPath ":a:b".toList).1 :=
  (parseBucketPath_first_colon ":a:b".toList).1 (by decide)

/-! ## The navigation state -/

theorem PrefixInvariant_nil : PrefixInvariant [] := by
  unfold PrefixInvariant
  exact ⟨by decide, Or.inl rfl⟩

/-- The prefix `runCD` stores, computed from any resolved path, satisfies the
invariant. -/
theorem PrefixInvariant_resolved (c t : GoString) :
    PrefixInvariant
      (if state.ResolvePath c t ≠ [] ∧ !strings.HasSuffix (state.ResolvePath c t) ['/']
        then state.ResolvePath c t ++ ['/'] else state.ResolvePath c t) := by
  have hlead := state.ResolvePath_no_leading_slash c t
  have htrail := state.ResolvePath_no_trailing_slash c t
  by_cases hn : state.ResolvePath c t = []
  · have : ¬ (state.ResolvePath c t ≠ [] ∧ !strings.HasSuffix (state.ResolvePath c t) ['/']) :=
      fun h => h.1 hn
    rw [if_neg this, hn]
    exact PrefixInvariant_nil
  · have : state.ResolvePath c t ≠ []
        ∧ (!strings.HasSuffix (state.ResolvePath c t) ['/']) = true := by
      refine ⟨hn, ?_⟩
      rw [htrail]; rfl
    rw [if_pos this]
    refine ⟨?_, Or.inr (by simp [strings.HasSuffix])⟩
    cases hb : strings.HasPrefix (state.ResolvePath c t ++ ['/']) ['/'] with
    | false => rfl
    | true =>
      exfalso
      have h1 := (state.hasPrefix_slash_iff _).1 hb
      have h2 : (state.ResolvePath c t).head? = some '/' := by
        cases hr : state.ResolvePath c t with
        | nil => exact absurd hr hn
        | cons a r => rw [hr] at h1; simpa using h1
      have h3 := (state.hasPrefix_slash_iff _).2 h2
      rw [hlead] at h3
      exact Bool.false_ne_true h3

theorem runCD_invariant (env : Env) (target : GoString) (more : List GoString)
    (saveErr : Option GoString) :
    PrefixInvariant (runCD env (target :: more) saveErr).1.State.Prefix := by
  unfold runCD
  cases saveErr <;> exact PrefixInvariant_resolved _ _

theorem NavOp_apply_invariant (env : Env) (op : NavOp) :
    PrefixInvariant (op.apply env).State.Prefix := by
  cases op with
  | cd target more saveErr => exact runCD_invariant env target more saveErr
  | setBucket bucket => exact PrefixInvariant_nil

theorem NavOp_foldl_invariant (ops : List NavOp) (env : Env)
    (h : PrefixInvariant env.State.Prefix) :
    PrefixInvariant (ops.foldl NavOp.apply env).State.Prefix := by
  induction ops generalizing env with
  | nil => exact h
  | cons op ops ih =>
    rw [List.foldl_cons]
    exact ih _ (NavOp_apply_invariant env op)

/-- Claim C13. The navigation-state invariant holds after every mutation: from any
state, every `cd` (with any target, the `bucket:path` form included, whether or not the
state could be saved) and every `SetBucket` leaves a `Prefix` that does not begin with
`'/'` and is empty or ends with `'/'`; so the same holds after any non-empty sequence of
such mutations from any state, and after any sequence from a state that satisfies it. -/
theorem navigation_invariant (env : Env) (ops : List NavOp) :
    (∀ op : NavOp,
        strings.HasPrefix (op.apply env).State.Prefix ['/'] = false
          ∧ ((op.apply env).State.Prefix = []
              ∨ strings.HasSuffix (op.apply env).State.Prefix ['/'] = true))
      ∧ (ops ≠ [] → PrefixInvariant (ops.foldl NavOp.apply env).State.Prefix)
      ∧ (PrefixInvariant env.State.Prefix →
          PrefixInvariant (ops.foldl NavOp.apply env).State.Prefix) := by
  refine ⟨fun op => NavOp_apply_invariant env op, fun hne => ?_,
    fun h => NavOp_foldl_invariant ops env h⟩
  cases ops with
  | nil => exact absurd rfl hne
  | cons op ops =>
    rw [List.foldl_cons]
    exact NavOp_foldl_invariant ops _ (NavOp_apply_invariant env op)

theorem navigation_invariant_witness :
    PrefixInvariant
      ((([NavOp.cd "/x".toList [] none, NavOp.setBucket "b".toList,
          NavOp.cd "c:/p//q/../r".toList [] (some "disk full".toList)] : List NavOp).foldl
        NavOp.apply
        { Cfg := { DefaultBucket := [], Buckets := [], Region := [], Profile := [], path := [] },
          State := { Bucket := [], Prefix := "/bad//prefix".toList, path := [] },
          Opts := { Bucket := [], Region := [], Profile := [], Config := [] } }).State.Prefix) :=
  (navigation_invariant _ _).2.1 (by simp)

end cmd

/-! ## Region and profile resolution -/

namespace config

theorem getBucketLoop_eq_find (name : GoString) (bs : List BucketConfig) :
    getBucketLoop name bs = bs.find? (fun b => decide (b.Name = name)) := by
  induction bs with
  | nil => rfl
  | cons b bs ih =>
    unfold getBucketLoop
    by_cases h : b.Name = name
    · simp [h]
    · simp [h, ih]

theorem getBucketLoop_some (name : GoString) (bs : List BucketConfig) (b : BucketConfig)
    (h : getBucketLoop name bs = some b) : b ∈ bs ∧ b.Name = name := by
  rw [getBucketLoop_eq_find] at h
  exact ⟨List.mem_of_find?_eq_some h, by simpa using List.find?_some h⟩

theorem getBucketLoop_none (name : GoString) (bs : List BucketConfig) :
    getBucketLoop name bs = none ↔ ∀ b ∈ bs, b.Name ≠ name := by
  rw [getBucketLoop_eq_find, List.find?_eq_none]
  simp

/-- Claim C17. `ResolveRegion(override, bucket)` and `ResolveProfile(override, bucket)`
follow the precedence override > per-bucket > global > unset: the result is the override
when it is non-empty; otherwise the region/profile of the configured bucket of that name
(the one `GetBucket` finds: the first with that name) when there is one and its value is
non-empty; otherwise the global region/profile, which is the empty string when unset. -/
theorem resolve_precedence (c : Config) (override bucket : GoString) :
    (override ≠ [] →
        c.ResolveRegion override bucket = override
          ∧ c.ResolveProfile override bucket = override)
      ∧ (override = [] → ∀ b, c.GetBucket bucket = some b →
          (b.Region ≠ [] → c.ResolveRegion override bucket = b.Region)
            ∧ (b.Region = [] → c.ResolveRegion override bucket = c.Region)
            ∧ (b.Profile ≠ [] → c.ResolveProfile override bucket = b.Profile)
            ∧ (b.Profile = [] → c.ResolveProfile override bucket = c.Profile))
      ∧ (override = [] → c.GetBucket bucket = none →
          c.ResolveRegion override bucket = c.Region
            ∧ c.ResolveProfile override bucket = c.Profile)
      ∧ (c.GetBucket bucket = c.Buckets.find? (fun b => decide (b.Name = bucket)))
      ∧ (c.GetBucket bucket = none ↔ ∀ b ∈ c.Buckets, b.Name ≠ bucket)
      ∧ (∀ b, c.GetBucket bucket = some b → b ∈ c.Buckets ∧ b.Name = bucket) := by
  have hglobalR : (if c.Region ≠ [] then c.Region else []) = c.Region := by
    by_cases h : c.Region = []
    · simp [h]
    · simp [h]
  have hglobalP : (if c.Profile ≠ [] then c.Profile else []) = c.Profile := by
    by_cases h : c.Profile = []
    · simp [h]
    · simp [h]
  refine ⟨fun h => ?_, fun h b hb => ?_, fun h hb => ?_, getBucketLoop_eq_find _ _,
    getBucketLoop_none _ _, fun b hb => getBucketLoop_some _ _ b hb⟩
  · unfold Config.ResolveRegion Config.ResolveProfile
    rw [if_pos h, if_pos h]
    exact ⟨rfl, rfl⟩
  · have hno : ¬ (override ≠ []) := fun hne => hne h
    unfold Config.ResolveRegion Config.ResolveProfile
    rw [if_neg hno, if_neg hno, hb]
    refine ⟨fun hr => ?_, fun hr => ?_, fun hp => ?_, fun hp => ?_⟩
    · show (if b.Region ≠ [] then b.Region else _) = _
      rw [if_pos hr]
    · show (if b.Region ≠ [] then b.Region else _) = _
      rw [if_neg (fun hne => hne hr)]
      exact hglobalR
    · show (if b.Profile ≠ [] then b.Profile else _) = _
      rw [if_pos hp]
    · show (if b.Profile ≠ [] then b.Profile else _) = _
      rw [if_neg (fun hne => hne hp)]
      exact hglobalP
  · have hno : ¬ (override ≠ []) := fun hne => hne h
    unfold Config.ResolveRegion Config.ResolveProfile
    rw [if_neg hno, if_neg hno, hb]
    exact ⟨hglobalR, hglobalP⟩

theorem resolve_precedence_witness :
    Config.ResolveRegion
        { DefaultBucket := [], Region := "us-east-1".toList, Profile := [], path := [],
          Buckets := [{ Name := "b".toList, Region := "eu-west-1".toList, Profile := [] }] }
        [] "b".toList = "eu-west-1".toList
      ∧ Config.ResolveProfile
        { DefaultBucket := [], Region := "us-east-1".toList, Profile := [], path := [],
          Buckets := [{ Name := "b".toList, Region := "eu-west-1".toList, Profile := [] }] }
        [] "b".toList = [] :=
  ⟨((resolve_precedence
      { DefaultBucket := [], Region := "us-east-1".toList, Profile := [], path := [],
        Buckets := [{ Name := "b".toList, Region := "eu-west-1".toList, Profile := [] }] }
      [] "b".toList).2.1 rfl _ rfl).1 (by decide),
   by decide⟩

end config

/-! ## `strings.ToLower` and `ParseTier` -/

namespace strings

theorem map_lowerASCII_of_no_upper (s : GoString) (h : s.any unicode.isUpperASCII = false) :
    s.map unicode.lowerASCII = s := by
  induction s with
  | nil => rfl
  | cons c s ih =>
    rw [List.any_cons, Bool.or_eq_false_iff] at h
    rw [List.map_cons, ih h.2]
    unfold unicode.lowerASCII
    rw [h.1]
    rfl

/-- On an ASCII-only string `strings.ToLower` shifts the upper-case ASCII letters and
does not consult the Unicode tables. -/
theorem ToLower_ascii (table : Char → Char) (s : GoString)
    (h : s.all (fun c => c.toNat < 128) = true) :
    ToLower table s = s.map unicode.lowerASCII := by
  unfold ToLower
  simp only [h, if_true]
  cases hu : s.any unicode.isUpperASCII with
  | false => simp [map_lowerASCII_of_no_upper s hu]
  | true => simp

end strings

namespace aws

/-- Claim C18. `ParseTier` is case-insensitive and accepts exactly three names: for
every string `s`, `ParseTier(s)` succeeds if and only if the lower-cased `s`
(`strings.ToLower(s)`, which on ASCII input lowers the letters `A`-`Z`) is `standard`,
`bulk` or `expedited`, and it returns the tier `Standard`, `Bulk` or `Expedited`
respectively; every other input, the empty string included, returns an error. -/
theorem ParseTier_accepts_iff (table : Char → Char) (quote : GoString → GoString)
    (s : GoString) :
    ((∃ t, ParseTier table quote s = .ok t)
        ↔ (strings.ToLower table s = "standard".toList
            ∨ strings.ToLower table s = "bulk".toList
            ∨ strings.ToLower table s = "expedited".toList))
      ∧ (strings.ToLower table s = "standard".toList
          → ParseTier table quote s = .ok TierStandard)
      ∧ (strings.ToLower table s = "bulk".toList → ParseTier table quote s = .ok TierBulk)
      ∧ (strings.ToLower table s = "expedited".toList
          → ParseTier table quote s = .ok TierExpedited)
      ∧ (¬ (strings.ToLower table s = "standard".toList
            ∨ strings.ToLower table s = "bulk".toList
            ∨ strings.ToLower table s = "expedited".toList)
          → ∃ err, ParseTier table quote s = .error err)
      ∧ (s.all (fun c => c.toNat < 128) = true
          → strings.ToLower table s = s.map unicode.lowerASCII)
      ∧ (∃ err, ParseTier table quote [] = .error err)
      ∧ (∃ err, ParseTier table quote "fast".toList = .error err)
      ∧ ParseTier table quote "STANDARD".toList = .ok TierStandard
      ∧ ParseTier table quote "Bulk".toList = .ok TierBulk
      ∧ ParseTier table quote "Expedited".toList = .ok TierExpedited := by
  have hs : strings.ToLower table s = "standard".toList
      → ParseTier table quote s = .ok TierStandard := by
    intro h
    unfold ParseTier
    rw [if_pos h]
  have hb : strings.ToLower table s = "bulk".toList
      → ParseTier table quote s = .ok TierBulk := by
    intro h
    unfold ParseTier
    rw [h, if_neg (by decide), if_pos rfl]
  have he : strings.ToLower table s = "expedited".toList
      → ParseTier table quote s = .ok TierExpedited := by
    intro h
    unfold ParseTier
    rw [h, if_neg (by decide), if_neg (by decide), if_pos rfl]
  have hn : ¬ (strings.ToLower table s = "standard".toList
        ∨ strings.ToLower table s = "bulk".toList
        ∨ strings.ToLower table s = "expedited".toList)
      → ∃ err, ParseTier table quote s = .error err := by
    intro h
    unfold ParseTier
    rw [if_neg (fun e => h (Or.inl e)), if_neg (fun e => h (Or.inr (Or.inl e))),
      if_neg (fun e => h (Or.inr (Or.inr e)))]
    exact ⟨_, rfl⟩
  refine ⟨⟨fun hok => ?_, fun h => ?_⟩, hs, hb, he, hn, strings.ToLower_ascii table s,
    ⟨_, rfl⟩, ⟨_, rfl⟩, rfl, rfl, rfl⟩
  · by_contra hno
    obtain ⟨err, herr⟩ := hn hno
    obtain ⟨t, ht⟩ := hok
    rw [herr] at ht
    cases ht
  · rcases h with h | h | h
    · exact ⟨_, hs h⟩
    · exact ⟨_, hb h⟩
    · exact ⟨_, he h⟩

theorem ParseTier_accepts_iff_witness :
    ParseTier id id "eXpEdItEd".toList = .ok TierExpedited :=
  (ParseTier_accepts_iff id id "eXpEdItEd".toList).2.2.2.1 (by decide)

end aws

/-! ## The restore command -/

namespace cmd

theorem restoreObject_requested (quote : GoString → GoString) (info : aws.ObjectInfo)
    (bucket key : GoString) (days : Int) (tier : aws.Tier) (restoreErr : Option GoString) :
    (isGlacierClass info.StorageClass = true
        ∧ aws.ValidateTier info.StorageClass tier = none
        ∧ info.RestoreStatus ≠ "in-progress".toList
        ∧ info.RestoreStatus ≠ "available".toList)
      → restoreObject quote info bucket key days tier restoreErr
          = .requested { Bucket := bucket, Key := key, Days := aws.toInt32 days, Tier := tier }
              restoreErr := by
  rintro ⟨hg, hv, hp, ha⟩
  unfold restoreObject
  rw [hg, hv]
  simp only [Bool.not_true, Bool.false_eq_true, if_false]
  rw [if_neg hp, if_neg ha]

theorem restoreObject_requested_inv (quote : GoString → GoString) (info : aws.ObjectInfo)
    (bucket key : GoString) (days : Int) (tier : aws.Tier) (restoreErr : Option GoString)
    (input : aws.RestoreInput) (err : Option GoString)
    (h : restoreObject quote info bucket key days tier restoreErr = .requested input err) :
    (isGlacierClass info.StorageClass = true
        ∧ aws.ValidateTier info.StorageClass tier = none
        ∧ info.RestoreStatus ≠ "in-progress".toList
        ∧ info.RestoreStatus ≠ "available".toList)
      ∧ input = { Bucket := bucket, Key := key, Days := aws.toInt32 days, Tier := tier }
      ∧ err = restoreErr := by
  unfold restoreObject at h
  cases hg : isGlacierClass info.StorageClass with
  | false =>
    rw [hg] at h
    simp only [Bool.not_false, if_true] at h
    cases h
  | true =>
    rw [hg] at h
    simp only [Bool.not_true, Bool.false_eq_true, if_false] at h
    cases hv : aws.ValidateTier info.StorageClass tier with
    | some e => rw [hv] at h; cases h
    | none =>
      rw [hv] at h
      by_cases hp : info.RestoreStatus = "in-progress".toList
      · rw [if_pos hp] at h; cases h
      · rw [if_neg hp] at h
        by_cases ha : info.RestoreStatus = "available".toList
        · rw [if_pos ha] at h; cases h
        · rw [if_neg ha] at h
          have h1 := RestoreOutcome.requested.inj h
          exact ⟨⟨rfl, rfl, hp, ha⟩, h1.1.symm, h1.2.symm⟩

theorem runRestore_requested_inv (table : Char → Char) (quote : GoString → GoString)
    (env : Env) (flagErr : Option GoString) (days : Int) (tier : GoString)
    (rest : List GoString) (clientErr : Option GoString)
    (head : Except GoString aws.ObjectInfo) (restoreErr : Option GoString)
    (input : aws.RestoreInput) (err : Option GoString)
    (h : runRestore table quote env flagErr days tier rest clientErr head restoreErr
      = .requested input err) :
    ∃ bucket key parsedTier info,
      head = .ok info ∧ aws.ParseTier table quote tier = .ok parsedTier
        ∧ restoreObject quote info bucket key days parsedTier restoreErr
            = .requested input err := by
  unfold runRestore at h
  cases flagErr with
  | some e => cases h
  | none =>
    cases rest with
    | nil => cases h
    | cons arg0 more =>
      simp only at h
      cases hb : env.ResolveBucket with
      | error e => rw [hb] at h; cases h
      | ok bucket =>
        rw [hb] at h
        simp only at h
        by_cases hk : state.ResolvePath env.State.Prefix arg0 = []
        · rw [if_pos hk] at h; cases h
        · rw [if_neg hk] at h
          cases ht : aws.ParseTier table quote tier with
          | error e => rw [ht] at h; cases h
          | ok parsedTier =>
            rw [ht] at h
            cases clientErr with
            | some e => cases h
            | none =>
              cases head with
              | error e => cases h
              | ok info => exact ⟨bucket, _, parsedTier, info, rfl, rfl, h⟩

/-- Once the steps before `HeadObject` have succeeded and `HeadObject` has returned
`info`, `runRestore` is its archival check, tier check, status switch and request. -/
theorem runRestore_after_head (table : Char → Char) (quote : GoString → GoString)
    (env : Env) (days : Int) (tier arg0 : GoString) (more : List GoString)
    (info : aws.ObjectInfo) (restoreErr : Option GoString) (bucket : GoString)
    (parsedTier : aws.Tier)
    (hbucket : env.ResolveBucket = .ok bucket)
    (hkey : state.ResolvePath env.State.Prefix arg0 ≠ [])
    (htier : aws.ParseTier table quote tier = .ok parsedTier) :
    runRestore table quote env none days tier (arg0 :: more) none (.ok info) restoreErr
      = restoreObject quote info bucket (state.ResolvePath env.State.Prefix arg0) days
          parsedTier restoreErr := by
  unfold runRestore
  simp only [hbucket, htier, if_neg hkey]

/-- Claim C19. The restore command keeps the two-step split.  For every run of
`runRestore` in which `HeadObject` is reached and returns `info` (flags parsed, a path
given, bucket resolved, key not empty, tier parsed, client created): a class that is not
archival fails at the archival check with the "restore not needed" error for every tier
(the tier check is not reached); an archival class with a rejected tier fails at the tier
check; and `RestoreObject` is called exactly when the class is archival, `ValidateTier`
accepts the tier, and the restore status is neither `in-progress` nor `available`. -/
theorem restore_two_step (table : Char → Char) (quote : GoString → GoString)
    (env : Env) (days : Int) (tier arg0 : GoString) (more : List GoString)
    (info : aws.ObjectInfo) (restoreErr : Option GoString) (bucket : GoString)
    (parsedTier : aws.Tier)
    (hbucket : env.ResolveBucket = .ok bucket)
    (hkey : state.ResolvePath env.State.Prefix arg0 ≠ [])
    (htier : aws.ParseTier table quote tier = .ok parsedTier) :
    (isGlacierClass info.StorageClass = false →
        runRestore table quote env none days tier (arg0 :: more) none (.ok info) restoreErr
            = .failed .notArchival
                (errNotNeeded quote (state.ResolvePath env.State.Prefix arg0)
                  info.StorageClass)
          ∧ "restore not needed".toList
              <:+: errNotNeeded quote (state.ResolvePath env.State.Prefix arg0)
                info.StorageClass)
      ∧ (isGlacierClass info.StorageClass = true →
          ∀ e, aws.ValidateTier info.StorageClass parsedTier = some e →
            runRestore table quote env none days tier (arg0 :: more) none (.ok info)
                restoreErr
              = .failed .validateTier e)
      ∧ ((∃ input err,
            runRestore table quote env none days tier (arg0 :: more) none (.ok info)
                restoreErr
              = .requested input err)
          ↔ (isGlacierClass info.StorageClass = true
              ∧ aws.ValidateTier info.StorageClass parsedTier = none
              ∧ info.RestoreStatus ≠ "in-progress".toList
              ∧ info.RestoreStatus ≠ "available".toList))
      ∧ ((isGlacierClass info.StorageClass = true
            ∧ aws.ValidateTier info.StorageClass parsedTier = none
            ∧ info.RestoreStatus ≠ "in-progress".toList
            ∧ info.RestoreStatus ≠ "available".toList) →
          runRestore table quote env none days tier (arg0 :: more) none (.ok info) restoreErr
            = .requested
                { Bucket := bucket, Key := state.ResolvePath env.State.Prefix arg0,
                  Days := aws.toInt32 days, Tier := parsedTier }
                restoreErr)
      ∧ (isGlacierClass info.StorageClass = true →
          aws.ValidateTier info.StorageClass parsedTier = none →
          (info.RestoreStatus = "in-progress".toList
            ∨ info.RestoreStatus = "available".toList) →
          ∃ msg,
            runRestore table quote env none days tier (arg0 :: more) none (.ok info)
                restoreErr
              = .skipped msg)
      ∧ (∀ (flagErr : Option GoString) (rest : List GoString)
          (clientErr : Option GoString) (head : Except GoString aws.ObjectInfo)
          (input : aws.RestoreInput) (err : Option GoString),
          runRestore table quote env flagErr days tier rest clientErr head restoreErr
              = .requested input err →
            ∃ i, head = .ok i
              ∧ isGlacierClass i.StorageClass = true
              ∧ aws.ValidateTier i.StorageClass parsedTier = none
              ∧ i.RestoreStatus ≠ "in-progress".toList
              ∧ i.RestoreStatus ≠ "available".toList) := by
  have hrun := runRestore_after_head table quote env days tier arg0 more info restoreErr
    bucket parsedTier hbucket hkey htier
  rw [hrun]
  refine ⟨fun hg => ⟨?_, ?_⟩, fun hg e he => ?_, ⟨fun h => ?_, fun h => ?_⟩, fun h => ?_,
    fun hg hv hs => ?_, ?_⟩
  · unfold restoreObject
    rw [hg]
    rfl
  · exact ⟨"object ".toList ++ quote (state.ResolvePath env.State.Prefix arg0)
        ++ " is in ".toList ++ info.StorageClass ++ " storage (not Glacier); ".toList, [],
      by simp [errNotNeeded]⟩
  · unfold restoreObject
    rw [hg, he]
    rfl
  · obtain ⟨input, err, h⟩ := h
    exact (restoreObject_requested_inv quote info bucket _ days parsedTier restoreErr
      input err h).1
  · exact ⟨_, _, restoreObject_requested quote info bucket _ days parsedTier restoreErr h⟩
  · exact restoreObject_requested quote info bucket _ days parsedTier restoreErr h
  · unfold restoreObject
    rw [hg, hv]
    simp only [Bool.not_true, Bool.false_eq_true, if_false]
    by_cases hp : info.RestoreStatus = "in-progress".toList
    · rw [if_pos hp]; exact ⟨_, rfl⟩
    · rw [if_neg hp]
      have ha : info.RestoreStatus = "available".toList := by
        rcases hs with h | h
        · exact absurd h hp
        · exact h
      rw [if_pos ha]; exact ⟨_, rfl⟩
  · intro flagErr rest clientErr head input err h
    obtain ⟨b, k, parsed, i, h1, h2, h3⟩ :=
      runRestore_requested_inv table quote env flagErr days tier rest clientErr head
        restoreErr input err h
    have hp : parsed = parsedTier := by
      rw [htier] at h2
      exact (Except.ok.inj h2).symm
    subst hp
    have h4 := (restoreObject_requested_inv quote i b k days parsed restoreErr input err h3).1
    exact ⟨i, h1, h4⟩

theorem restore_two_step_witness :
    runRestore id (fun s => '"' :: s ++ ['"'])
        (Env.mk (config.Config.mk [] [] [] [] []) (state.State.mk "b".toList "dir/".toList [])
          (GlobalOpts.mk [] [] [] []))
        none 7 "EXPEDITED".toList ["k".toList] none
        (.ok (aws.ObjectInfo.mk "dir/k".toList 0 [] "STANDARD".toList [] [] [] false)) none
      = .failed .notArchival
          "object \"dir/k\" is in STANDARD storage (not Glacier); restore not needed".toList :=
  ((restore_two_step id (fun s => '"' :: s ++ ['"'])
      (Env.mk (config.Config.mk [] [] [] [] []) (state.State.mk "b".toList "dir/".toList [])
        (GlobalOpts.mk [] [] [] []))
      7 "EXPEDITED".toList "k".toList []
      (aws.ObjectInfo.mk "dir/k".toList 0 [] "STANDARD".toList [] [] [] false) none
      "b".toList aws.TierExpedited rfl (by decide) rfl).1 (by decide)).1

/-- Counterexample to claim C14 as stated: `yelo restore --days 0 k` on an archived object
sends a `RestoreInput` with `Days = 0`. -/
theorem runRestore_days_zero :
    runRestore id id
        (Env.mk (config.Config.mk [] [] [] [] []) (state.State.mk "b".toList [] [])
          (GlobalOpts.mk [] [] [] []))
        none 0 "Standard".toList ["k".toList] none
        (.ok (aws.ObjectInfo.mk "k".toList 0 [] "GLACIER".toList [] [] [] false)) none
      = .requested { Bucket := "b".toList, Key := "k".toList, Days := 0,
                     Tier := aws.TierStandard } none
      ∧ ¬ ((0 : Int) < (aws.RestoreInput.mk "b".toList "k".toList 0 aws.TierStandard).Days) := by
  decide

/-- Claim C14, as amended. Every `RestoreInput` that the restore command passes to
`RestoreObject` has `Days` equal to the value of `--days` converted to `int32`; the
command does not check the value, so `Days > 0` holds exactly when the converted value is
positive, in particular for every `--days` from `1` to `2147483647` (the default `7`
included). -/
theorem runRestore_days (table : Char → Char) (quote : GoString → GoString)
    (env : Env) (flagErr : Option GoString) (days : Int) (tier : GoString)
    (rest : List GoString) (clientErr : Option GoString)
    (head : Except GoString aws.ObjectInfo) (restoreErr : Option GoString)
    (input : aws.RestoreInput) (err : Option GoString)
    (h : runRestore table quote env flagErr days tier rest clientErr head restoreErr
      = .requested input err) :
    input.Days = aws.toInt32 days
      ∧ (0 < input.Days ↔ 0 < aws.toInt32 days)
      ∧ (0 < days → days ≤ 2147483647 → input.Days = days ∧ 0 < input.Days)
      ∧ aws.toInt32 7 = 7 := by
  obtain ⟨b, k, parsed, i, _, _, h3⟩ :=
    runRestore_requested_inv table quote env flagErr days tier rest clientErr head restoreErr
      input err h
  have hd : input.Days = aws.toInt32 days := by
    rw [(restoreObject_requested_inv quote i b k days parsed restoreErr input err h3).2.1]
  refine ⟨hd, by rw [hd], fun h0 h1 => ?_, by decide⟩
  have : aws.toInt32 days = days := by
    unfold aws.toInt32
    omega
  rw [hd, this]
  exact ⟨rfl, h0⟩

theorem runRestore_days_witness :
    (aws.RestoreInput.mk "b".toList "k".toList 7 aws.TierStandard).Days = aws.toInt32 7 :=
  (runRestore_days id id
    (Env.mk (config.Config.mk [] [] [] [] []) (state.State.mk "b".toList [] [])
      (GlobalOpts.mk [] [] [] []))
    none 7 "Standard".toList ["k".toList] none
    (.ok (aws.ObjectInfo.mk "k".toList 0 [] "GLACIER".toList [] [] [] false)) none
    (aws.RestoreInput.mk "b".toList "k".toList 7 aws.TierStandard) none (by decide)).1

end cmd

/-! ## Progress calls of a transfer -/

namespace aws

theorem wrapInt64_of_lt (x : Int) (h0 : 0 ≤ x) (h1 : x < 9223372036854775808) :
    wrapInt64 x = x := by
  unfold wrapInt64
  omega

theorem LogOk_append (count : IOEvent → Nat) (total : Int) (l1 l2 : List IOEvent)
    (t0 : Int) :
    LogOk count total t0 (l1 ++ l2)
      ↔ LogOk count total t0 l1 ∧ LogOk count total (t0 + ((l1.map count).sum : Nat)) l2 := by
  induction l1 generalizing t0 with
  | nil => simp [LogOk]
  | cons e l1 ih =>
    show ((∀ t tot, e = IOEvent.progress t tot → t = t0 ∧ tot = total)
        ∧ LogOk count total (t0 + count e) (l1 ++ l2)) ↔ _
    rw [ih]
    simp only [LogOk, List.map_cons, List.sum_cons, Nat.cast_add, and_assoc, Int.add_assoc]

theorem LogOk_split (count : IOEvent → Nat) (total : Int) (log : List IOEvent) (t0 : Int)
    (h : LogOk count total t0 log) (pre post : List IOEvent) (t tot : Int)
    (e : log = pre ++ IOEvent.progress t tot :: post) :
    t = t0 + ((pre.map count).sum : Nat) ∧ tot = total := by
  rw [e, LogOk_append] at h
  exact h.2.1 t tot rfl

theorem LogOk_calls (count : IOEvent → Nat) (total : Int)
    (hc : ∀ t tot, count (IOEvent.progress t tot) = 0) (log : List IOEvent) (t0 : Int)
    (h : LogOk count total t0 log) :
    (progressCalls log).Pairwise (fun a b => a.1 ≤ b.1)
      ∧ ∀ p ∈ progressCalls log, t0 ≤ p.1 ∧ p.2 = total := by
  induction log generalizing t0 with
  | nil => simp [progressCalls]
  | cons e log ih =>
    obtain ⟨h1, h2⟩ := h
    obtain ⟨ih1, ih2⟩ := ih _ h2
    have hle : ∀ p ∈ progressCalls log, t0 ≤ p.1 ∧ p.2 = total := by
      intro p hp
      have := ih2 p hp
      have hn : (0 : Int) ≤ (count e : Int) := Int.ofNat_nonneg _
      exact ⟨by omega, this.2⟩
    cases e with
    | read n err => exact ⟨ih1, hle⟩
    | write w err => exact ⟨ih1, hle⟩
    | progress t tot =>
      obtain ⟨ht, htot⟩ := h1 t tot rfl
      subst ht
      subst htot
      have h0 : count (IOEvent.progress t tot) = 0 := hc t tot
      refine ⟨?_, ?_⟩
      · show ((t, tot) :: progressCalls log).Pairwise _
        rw [List.pairwise_cons]
        exact ⟨fun p hp => (hle p hp).1, ih1⟩
      · intro p hp
        have hp2 : p ∈ (t, tot) :: progressCalls log := hp
        rcases List.mem_cons.1 hp2 with e | e
        · subst e; exact ⟨le_refl _, rfl⟩
        · exact hle p e

theorem writeChunk_ok (hasProgress : Bool) (total : Int) (ch : Chunk) (t0 : Nat)
    (h : t0 + ch.written < 9223372036854775808) :
    LogOk IOEvent.writtenBytes total t0 (writeChunk hasProgress total ch t0).1
      ∧ ((writeChunk hasProgress total ch t0).2.2 = none →
          (writeChunk hasProgress total ch t0).2.1
            = ((t0 + (((writeChunk hasProgress total ch t0).1.map
                IOEvent.writtenBytes).sum) : Nat) : Int)) := by
  have hw : wrapInt64 ((t0 : Int) + (ch.written : Int)) = (t0 : Int) + (ch.written : Int) :=
    wrapInt64_of_lt _ (by omega) (by omega)
  unfold writeChunk
  by_cases hn : ch.n > 0
  · rw [if_pos hn]
    cases hwe : ch.writeErr with
    | some e =>
      refine ⟨?_, fun h => by cases h⟩
      simp [LogOk]
    | none =>
      cases hasProgress with
      | false =>
        simp [LogOk, IOEvent.writtenBytes, hw]
      | true =>
        simp [LogOk, IOEvent.writtenBytes, hw]
  · rw [if_neg hn]
    simp [LogOk, IOEvent.writtenBytes]

theorem downloadLoop_LogOk (hasProgress : Bool) (total : Int) (chunks : List Chunk) :
    ∀ t0 : Nat, t0 + (chunks.map Chunk.written).sum < 9223372036854775808 →
      LogOk IOEvent.writtenBytes total t0 (downloadLoop hasProgress total chunks t0).log := by
  induction chunks with
  | nil => intro t0 _; simp [downloadLoop, LogOk]
  | cons ch rest ih =>
    intro t0 h
    rw [List.map_cons, List.sum_cons] at h
    obtain ⟨hlog, hnext⟩ := writeChunk_ok hasProgress total ch t0 (by omega)
    unfold downloadLoop
    cases hwf : (writeChunk hasProgress total ch (t0 : Int)).2.2 with
    | some e => exact hlog
    | none =>
      simp only
      cases hre : ch.readErr with
      | eof => exact hlog
      | failed e => exact hlog
      | nil =>
        simp only
        rw [LogOk_append]
        refine ⟨hlog, ?_⟩
        rw [hnext hwf]
        have hsum : ((writeChunk hasProgress total ch (t0 : Int)).1.map
            IOEvent.writtenBytes).sum ≤ ch.written := by
          unfold writeChunk
          by_cases hn : ch.n > 0
          · rw [if_pos hn]
            cases ch.writeErr <;> cases hasProgress <;> simp [IOEvent.writtenBytes]
          · rw [if_neg hn]
            simp [IOEvent.writtenBytes]
        have := ih (t0 + ((writeChunk hasProgress total ch (t0 : Int)).1.map
            IOEvent.writtenBytes).sum) (by omega)
        have hcast : ((t0 : Int) + (((writeChunk hasProgress total ch (t0 : Int)).1.map
            IOEvent.writtenBytes).sum : Nat))
            = ((t0 + ((writeChunk hasProgress total ch (t0 : Int)).1.map
                IOEvent.writtenBytes).sum : Nat) : Int) := by
          push_cast
          rfl
        rw [hcast]
        exact this

theorem readAll_LogOk (total : Int) (hasProgress : Bool) (reads : List (Nat × ReadErr)) :
    ∀ t0 : Nat, t0 + (reads.map Prod.fst).sum < 9223372036854775808 →
      LogOk IOEvent.readBytes total t0
        (progressReader.readAll ⟨total, t0, hasProgress⟩ reads) := by
  induction reads with
  | nil => intro t0 _; simp [progressReader.readAll, LogOk]
  | cons r rest ih =>
    intro t0 h
    rw [List.map_cons, List.sum_cons] at h
    have hw : wrapInt64 ((t0 : Int) + (r.1 : Int)) = ((t0 + r.1 : Nat) : Int) := by
      rw [wrapInt64_of_lt _ (by omega) (by omega)]
      push_cast
      rfl
    have hrec := ih (t0 + r.1) (by omega)
    rw [progressReader.readAll, LogOk]
    simp only [progressReader.Read, hw]
    refine ⟨fun t tot e => (by cases e), ?_⟩
    have hcast : ((t0 : Int) + ((IOEvent.read r.1 r.2).readBytes : Nat))
        = ((t0 + r.1 : Nat) : Int) := by
      simp [IOEvent.readBytes]
    rw [hcast, LogOk_append]
    refine ⟨?_, ?_⟩
    · by_cases hp : hasProgress = true ∧ r.1 > 0
      · rw [if_pos hp]; simp [LogOk]
      · rw [if_neg hp]; simp [LogOk]
    · have hz : ((if hasProgress = true ∧ r.1 > 0
          then [IOEvent.progress ((t0 + r.1 : Nat) : Int) total] else []).map
          IOEvent.readBytes).sum = 0 := by
        by_cases hp : hasProgress = true ∧ r.1 > 0
        · rw [if_pos hp]; simp [IOEvent.readBytes]
        · rw [if_neg hp]; simp
      rw [hz]
      simpa using hrec

end aws

namespace aws

/-- Claim C15. For every sequence of chunks delivered during a `Download`, and every
sequence of reads through the upload `progressReader`, whose byte total fits the `int64`
counter, the `bytesTransferred` values passed to the progress callback are non-decreasing
from call to call, each equals the number of bytes copied so far (written, respectively
read), and `totalBytes` is the same on every call. -/
theorem progress_calls_cumulative (key : GoString) (getErr : Option GoString)
    (total size : Int) (hasProgress : Bool) (chunks : List Chunk)
    (reads : List (Nat × ReadErr))
    (hd : (chunks.map Chunk.written).sum < 9223372036854775808)
    (hu : (reads.map Prod.fst).sum < 9223372036854775808) :
    (progressCalls (Download key getErr total hasProgress chunks).log).Pairwise
        (fun a b => a.1 ≤ b.1)
      ∧ (∀ pre t tot post,
          (Download key getErr total hasProgress chunks).log
              = pre ++ IOEvent.progress t tot :: post →
            t = bytesWritten pre ∧ tot = total)
      ∧ (progressCalls (progressReader.readAll ⟨size, 0, hasProgress⟩ reads)).Pairwise
          (fun a b => a.1 ≤ b.1)
      ∧ (∀ pre t tot post,
          progressReader.readAll ⟨size, 0, hasProgress⟩ reads
              = pre ++ IOEvent.progress t tot :: post →
            t = bytesRead pre ∧ tot = size) := by
  have hdl : LogOk IOEvent.writtenBytes total 0
      (Download key getErr total hasProgress chunks).log := by
    unfold Download
    cases getErr with
    | some e => simp [LogOk]
    | none => exact downloadLoop_LogOk hasProgress total chunks 0 (by omega)
  have hul : LogOk IOEvent.readBytes size 0
      (progressReader.readAll ⟨size, 0, hasProgress⟩ reads) :=
    readAll_LogOk size hasProgress reads 0 (by omega)
  refine ⟨(LogOk_calls _ total (fun _ _ => rfl) _ 0 hdl).1, ?_,
    (LogOk_calls _ size (fun _ _ => rfl) _ 0 hul).1, ?_⟩
  · intro pre t tot post e
    have := LogOk_split _ total _ 0 hdl pre post t tot e
    simpa [bytesWritten] using this
  · intro pre t tot post e
    have := LogOk_split _ size _ 0 hul pre post t tot e
    simpa [bytesRead] using this

theorem progress_calls_cumulative_witness :
    (progressCalls (Download "k".toList none 5 true
        [⟨3, ReadErr.nil, 3, none⟩, ⟨0, ReadErr.nil, 0, none⟩, ⟨2, ReadErr.eof, 2, none⟩]).log
      = [(3, 5), (5, 5)])
      ∧ (progressCalls (Download "k".toList none 5 true
          [⟨3, ReadErr.nil, 3, none⟩, ⟨0, ReadErr.nil, 0, none⟩,
            ⟨2, ReadErr.eof, 2, none⟩]).log).Pairwise (fun a b => a.1 ≤ b.1) :=
  ⟨by decide,
    (progress_calls_cumulative "k".toList none 5 5 true
      [⟨3, ReadErr.nil, 3, none⟩, ⟨0, ReadErr.nil, 0, none⟩, ⟨2, ReadErr.eof, 2, none⟩]
      [(4, ReadErr.nil), (0, ReadErr.eof)] (by decide) (by decide)).1⟩

/-! ## Interrupted downloads -/

theorem writeChunk_clean (hasProgress : Bool) (total : Int) (ch : Chunk) (t : Int)
    (h : ch.n = 0 ∨ ch.writeErr = none) : (writeChunk hasProgress total ch t).2.2 = none := by
  unfold writeChunk
  by_cases hn : ch.n > 0
  · rw [if_pos hn]
    rcases h with h | h
    · omega
    · rw [h]
  · rw [if_neg hn]

/-- Chunks that neither end nor interrupt the transfer are processed one after the
other, and the loop goes on with the chunks behind them. -/
theorem downloadLoop_clean_prefix (hasProgress : Bool) (total : Int) (pre : List Chunk)
    (hpre : ∀ c ∈ pre, c.clean = true) :
    ∀ t0 : Int, ∃ t1 : Int, ∀ rest : List Chunk,
      downloadLoop hasProgress total (pre ++ rest) t0
        = ⟨(downloadLoop hasProgress total pre t0).log
              ++ (downloadLoop hasProgress total rest t1).log,
            (downloadLoop hasProgress total rest t1).result⟩ := by
  induction pre with
  | nil =>
    intro t0
    exact ⟨t0, fun rest => by simp [downloadLoop]⟩
  | cons ch pre ih =>
    intro t0
    have hc : ch.readErr = ReadErr.nil ∧ (ch.n = 0 ∨ ch.writeErr = none) := by
      have := hpre ch (by simp)
      simpa [Chunk.clean] using this
    have hw := writeChunk_clean hasProgress total ch t0 hc.2
    obtain ⟨t1, ht1⟩ := ih (fun c hcm => hpre c (by simp [hcm]))
      (writeChunk hasProgress total ch t0).2.1
    refine ⟨t1, fun rest => ?_⟩
    rw [List.cons_append, downloadLoop, downloadLoop]
    simp only [hw, hc.1, ht1 rest, List.append_assoc]

/-- Claim C16, as amended. In `Download`, a write that fails makes `Download` return an
error with no progress call after that write (none for its chunk); a read that fails
with an error other than end-of-stream makes `Download` return an error after at most
one more progress call, the one for the bytes this read itself returned and that were
written (none when it returned no bytes), and nothing after. -/
theorem download_interrupted (key : GoString) (total : Int) (hasProgress : Bool)
    (pre : List Chunk) (ch : Chunk) (post : List Chunk)
    (hpre : ∀ c ∈ pre, c.clean = true) :
    (ch.n > 0 → ∀ e, ch.writeErr = some e →
        Download key none total hasProgress (pre ++ ch :: post)
          = ⟨(Download key none total hasProgress pre).log
                ++ [IOEvent.read ch.n ch.readErr, IOEvent.write ch.written (some e)],
              some (some ("writing download data: ".toList ++ e))⟩)
      ∧ (ch.n = 0 → ∀ e, ch.readErr = ReadErr.failed e →
          Download key none total hasProgress (pre ++ ch :: post)
            = ⟨(Download key none total hasProgress pre).log
                  ++ [IOEvent.read ch.n ch.readErr],
                some (some ("reading download stream: ".toList ++ e))⟩)
      ∧ (ch.n > 0 → ch.writeErr = none → ∀ e, ch.readErr = ReadErr.failed e →
          ∃ t, Download key none total hasProgress (pre ++ ch :: post)
            = ⟨(Download key none total hasProgress pre).log
                  ++ ([IOEvent.read ch.n ch.readErr, IOEvent.write ch.written none]
                      ++ (if hasProgress then [IOEvent.progress t total] else [])),
                some (some ("reading download stream: ".toList ++ e))⟩) := by
  obtain ⟨t1, ht1⟩ := downloadLoop_clean_prefix hasProgress total pre hpre 0
  unfold Download
  simp only [ht1 (ch :: post)]
  refine ⟨fun hn e he => ?_, fun hn e he => ?_, fun hn hw e he => ?_⟩
  · have h1 : (writeChunk hasProgress total ch t1) =
        ([IOEvent.read ch.n ch.readErr, IOEvent.write ch.written (some e)], t1, some e) := by
      unfold writeChunk
      rw [if_pos hn, he]
    rw [downloadLoop]
    simp only [h1]
  · have h1 : (writeChunk hasProgress total ch t1) = ([IOEvent.read ch.n ch.readErr], t1, none) := by
      unfold writeChunk
      rw [if_neg (by omega)]
    rw [downloadLoop]
    simp only [h1, he]
  · refine ⟨wrapInt64 (t1 + ch.written), ?_⟩
    have h1 : (writeChunk hasProgress total ch t1) =
        ([IOEvent.read ch.n ch.readErr, IOEvent.write ch.written none] ++
          (if hasProgress then [IOEvent.progress (wrapInt64 (t1 + ch.written)) total]
           else []),
          wrapInt64 (t1 + ch.written), none) := by
      unfold writeChunk
      rw [if_pos hn, hw]
    rw [downloadLoop]
    simp only [h1, he]

theorem download_interrupted_witness :
    Download "k".toList none 9 true
        ([⟨4, ReadErr.nil, 4, none⟩] ++ ⟨5, ReadErr.nil, 2, some "disk full".toList⟩
          :: [⟨1, ReadErr.eof, 1, none⟩])
      = ⟨(Download "k".toList none 9 true [⟨4, ReadErr.nil, 4, none⟩]).log
            ++ [IOEvent.read 5 ReadErr.nil, IOEvent.write 2 (some "disk full".toList)],
          some (some ("writing download data: ".toList ++ "disk full".toList))⟩ :=
  (download_interrupted "k".toList 9 true [⟨4, ReadErr.nil, 4, none⟩]
    ⟨5, ReadErr.nil, 2, some "disk full".toList⟩ [⟨1, ReadErr.eof, 1, none⟩]
    (by decide)).1 (by decide) _ rfl

/-- Counterexample to claim C16 as stated: when a `Read` returns 5 bytes together with an
error other than end-of-stream, `Download` writes them and calls the progress callback
after that failing read, and only then returns the error. -/
theorem download_progress_after_failed_read :
    Download "k".toList none 10 true [⟨5, ReadErr.failed "reset".toList, 5, none⟩]
      = ⟨[IOEvent.read 5 (ReadErr.failed "reset".toList), IOEvent.write 5 none,
            IOEvent.progress 5 10],
          some (some "reading download stream: reset".toList)⟩ := by
  decide

end aws

/-! ## Navigating in two steps -/

namespace state

open spec

/-- The scan of an already resolved path followed by more segments is the scan of the
segments that produced it followed by those segments. -/
theorem scan_resolved_append (c a : GoString) (more : List GoString) :
    (segments (ResolvePath c a) ++ more).foldl scanStep []
      = ((if a.head? = some '/' then segments a else segments c ++ segments a)
          ++ more).foldl scanStep [] := by
  have hk : Kept (normalise
      (if a.head? = some '/' then segments a else segments c ++ segments a)) :=
    Kept_normalise _ (fun s hs => scanned_no_slash c a s hs)
  rw [ResolvePath_scan, List.foldl_append, List.foldl_append, scan_joinSegments _ [] hk]
  unfold normalise
  simp

theorem head_append_of_ne_nil (a tl : GoString) (ha : a ≠ []) :
    (a ++ tl).head? = a.head? := by
  cases a with
  | nil => exact absurd rfl ha
  | cons x a => rfl

theorem ResolvePath_join (c a b : GoString) (ha : a ≠ []) :
    ResolvePath c (a ++ '/' :: b)
      = joinSegments (normalise
          ((if a.head? = some '/' then segments a else segments c ++ segments a)
            ++ segments b)) := by
  rw [ResolvePath_scan, head_append_of_ne_nil a _ ha, segments_append]
  by_cases h : a.head? = some '/'
  · rw [if_pos h, if_pos h]
  · rw [if_neg h, if_neg h, List.append_assoc]

theorem ResolvePath_step (r b : GoString) (hb : strings.HasPrefix b ['/'] = false) :
    ResolvePath r b = joinSegments ((segments r ++ segments b).foldl scanStep []).reverse := by
  have hbh : ¬ (b.head? = some '/') := by
    intro h
    have := (hasPrefix_slash_iff b).2 h
    rw [hb] at this
    exact Bool.false_ne_true this
  rw [ResolvePath_scan, if_neg hbh]
  rfl

/-- Claim C21. Navigating in two steps equals navigating in one: for every current `c`,
every non-empty target `a` and every target `b` that does not start with `'/'`,
`ResolvePath (ResolvePath c a) b = ResolvePath c (a ++ "/" ++ b)`; the same holds when
the first step stores its result as `cd` does, with a trailing `'/'`
(`ResolvePrefix c a`). -/
theorem ResolvePath_two_steps (c a b : GoString) (ha : a ≠ [])
    (hb : strings.HasPrefix b ['/'] = false) :
    ResolvePath (ResolvePath c a) b = ResolvePath c (a ++ '/' :: b)
      ∧ ResolvePath (ResolvePrefix c a) b = ResolvePath c (a ++ '/' :: b) := by
  have h1 : ResolvePath (ResolvePath c a) b = ResolvePath c (a ++ '/' :: b) := by
    rw [ResolvePath_step _ b hb, scan_resolved_append, ResolvePath_join c a b ha]
    rfl
  refine ⟨h1, ?_⟩
  rw [ResolvePrefix_eq]
  by_cases hn : ResolvePath c a = []
  · rw [if_pos hn, ← hn]; exact h1
  · rw [if_neg hn, ← h1, ResolvePath_step _ b hb, ResolvePath_step _ b hb]
    have hs : segments (ResolvePath c a ++ ['/']) = segments (ResolvePath c a) ++ [[]] := by
      have := segments_append (ResolvePath c a) []
      simpa [segments] using this
    rw [hs, List.append_assoc, List.foldl_append, List.foldl_append]
    simp [scanStep_nil]

theorem ResolvePath_two_steps_witness :
    ResolvePath (ResolvePath "a/b".toList "../c".toList) "../d/".toList
        = ResolvePath "a/b".toList ("../c".toList ++ '/' :: "../d/".toList)
      ∧ ResolvePath (ResolvePrefix "a/b".toList "../c".toList) "../d/".toList
        = ResolvePath "a/b".toList ("../c".toList ++ '/' :: "../d/".toList) :=
  ResolvePath_two_steps "a/b".toList "../c".toList "../d/".toList (by decide) (by decide)

end state

/-! ## The statuses `HeadObject` can report -/

namespace aws

theorem ParseRestoreHeader_values (header : GoString) :
    ParseRestoreHeader header = []
      ∨ ParseRestoreHeader header = "in-progress".toList
      ∨ ParseRestoreHeader header = "available".toList := by
  unfold ParseRestoreHeader
  by_cases h0 : header = []
  · rw [if_pos h0]; exact Or.inl rfl
  · rw [if_neg h0]
    by_cases h1 : strings.Contains header "ongoing-request=\"true\"".toList = true
    · rw [if_pos h1]; exact Or.inr (Or.inl rfl)
    · rw [if_neg h1]
      by_cases h2 : strings.Contains header "ongoing-request=\"false\"".toList = true
      · rw [if_pos h2]; exact Or.inr (Or.inr rfl)
      · rw [if_neg h2]; exact Or.inl rfl

theorem HeadObject_status (key : GoString) (o : HeadObjectOutput) (info : ObjectInfo)
    (h : HeadObject key (.ok o) = .ok info) :
    info.RestoreStatus = headRestoreStatus o.Restore := by
  unfold HeadObject at h
  have h1 := Except.ok.inj h
  rw [← h1]
  cases o.Restore <;> rfl

/-- Claim C22. For every header string the result of `ParseRestoreHeader` is one of `""`,
`in-progress` or `available`; it is never `expired`, the fourth value that the comment
on `ObjectInfo.RestoreStatus` lists, so the `RestoreStatus` of an object returned by
`HeadObject` (the parsed header, or `""` without a header) is never `expired`. -/
theorem ParseRestoreHeader_never_expired (header : GoString) :
    (ParseRestoreHeader header = []
        ∨ ParseRestoreHeader header = "in-progress".toList
        ∨ ParseRestoreHeader header = "available".toList)
      ∧ ParseRestoreHeader header ≠ "expired".toList
      ∧ (∀ (key : GoString) (o : HeadObjectOutput) (info : ObjectInfo),
          HeadObject key (.ok o) = .ok info →
            (info.RestoreStatus = [] ∨ info.RestoreStatus = "in-progress".toList
                ∨ info.RestoreStatus = "available".toList)
              ∧ info.RestoreStatus ≠ "expired".toList) := by
  have hne : ∀ s : GoString,
      (s = [] ∨ s = "in-progress".toList ∨ s = "available".toList) →
        s ≠ "expired".toList := by
    rintro s (h | h | h) <;> rw [h] <;> decide
  refine ⟨ParseRestoreHeader_values header,
    hne _ (ParseRestoreHeader_values header), fun key o info h => ?_⟩
  have hs := HeadObject_status key o info h
  have hv : info.RestoreStatus = [] ∨ info.RestoreStatus = "in-progress".toList
      ∨ info.RestoreStatus = "available".toList := by
    rw [hs]
    cases o.Restore with
    | none => exact Or.inl rfl
    | some hdr => exact ParseRestoreHeader_values hdr
  exact ⟨hv, hne _ hv⟩

theorem ParseRestoreHeader_never_expired_witness :
    (HeadObject "k".toList
        (.ok { ContentLength := some 3, StorageClass := "GLACIER".toList,
               ContentType := none, ETag := none, LastModified := none,
               Restore := some "ongoing-request=\"false\", expiry-date=\"Fri, 23 Dec 2012 00:00:00 GMT\"".toList })
      = .ok { Key := "k".toList, Size := 3, LastModified := [],
              StorageClass := "GLACIER".toList, RestoreStatus := "available".toList,
              ContentType := [], ETag := [], IsPrefix := false })
      ∧ "available".toList ≠ "expired".toList :=
  ⟨rfl, ((ParseRestoreHeader_never_expired []).2.2 "k".toList
      { ContentLength := some 3, StorageClass := "GLACIER".toList,
        ContentType := none, ETag := none, LastModified := none,
        Restore := some "ongoing-request=\"false\", expiry-date=\"Fri, 23 Dec 2012 00:00:00 GMT\"".toList }
      { Key := "k".toList, Size := 3, LastModified := [],
        StorageClass := "GLACIER".toList, RestoreStatus := "available".toList,
        ContentType := [], ETag := [], IsPrefix := false } rfl).2⟩

end aws

/-! ## The default bucket of the config -/

namespace config

theorem addBucketLoop_names (name region profile : GoString) (bs bs1 : List BucketConfig)
    (h : addBucketLoop name region profile bs = some bs1) :
    ∀ b ∈ bs, ∃ b1 ∈ bs1, b1.Name = b.Name := by
  induction bs generalizing bs1 with
  | nil => intro b hb; simp at hb
  | cons x bs ih =>
    unfold addBucketLoop at h
    by_cases hx : x.Name = name
    · rw [if_pos hx] at h
      have h1 := Option.some.inj h
      subst h1
      intro b hb
      rcases List.mem_cons.1 hb with e | e
      · subst e
        exact ⟨_, List.mem_cons_self _ _, rfl⟩
      · exact ⟨b, List.mem_cons_of_mem _ e, rfl⟩
    · rw [if_neg hx] at h
      cases hr : addBucketLoop name region profile bs with
      | none => rw [hr] at h; cases h
      | some r =>
        rw [hr] at h
        have h1 := Option.some.inj h
        subst h1
        intro b hb
        rcases List.mem_cons.1 hb with e | e
        · subst e
          exact ⟨b, List.mem_cons_self _ _, rfl⟩
        · obtain ⟨b1, hb1, hn⟩ := ih r hr b e
          exact ⟨b1, List.mem_cons_of_mem _ hb1, hn⟩

theorem removeBucketLoop_keeps (name : GoString) (bs bs1 : List BucketConfig)
    (h : removeBucketLoop name bs = some bs1) :
    ∀ b ∈ bs, b.Name ≠ name → b ∈ bs1 := by
  induction bs generalizing bs1 with
  | nil => intro b hb; simp at hb
  | cons x bs ih =>
    unfold removeBucketLoop at h
    by_cases hx : x.Name = name
    · rw [if_pos hx] at h
      have h1 := Option.some.inj h
      subst h1
      intro b hb hne
      rcases List.mem_cons.1 hb with e | e
      · subst e; exact absurd hx hne
      · exact e
    · rw [if_neg hx] at h
      cases hr : removeBucketLoop name bs with
      | none => rw [hr] at h; cases h
      | some r =>
        rw [hr] at h
        have h1 := Option.some.inj h
        subst h1
        intro b hb hne
        rcases List.mem_cons.1 hb with e | e
        · subst e; exact List.mem_cons_self _ _
        · exact List.mem_cons_of_mem _ (ih r hr b e hne)

theorem removeBucketLoop_none (name : GoString) (bs : List BucketConfig) :
    removeBucketLoop name bs = none ↔ ∀ b ∈ bs, b.Name ≠ name := by
  induction bs with
  | nil => simp [removeBucketLoop]
  | cons x bs ih =>
    unfold removeBucketLoop
    by_cases hx : x.Name = name
    · rw [if_pos hx]
      simp [hx]
    · rw [if_neg hx]
      simp [hx, ih]

theorem AddBucket_valid (c : Config) (name region profile : GoString) (h : DefaultValid c) :
    DefaultValid (c.AddBucket name region profile) := by
  unfold Config.AddBucket
  cases hl : addBucketLoop name region profile c.Buckets with
  | some bs =>
    rcases h with h | ⟨b, hb, hn⟩
    · exact Or.inl h
    · obtain ⟨b1, hb1, hn1⟩ := addBucketLoop_names name region profile c.Buckets bs hl b hb
      exact Or.inr ⟨b1, hb1, hn1.trans hn⟩
  | none =>
    rcases h with h | ⟨b, hb, hn⟩
    · exact Or.inl h
    · exact Or.inr ⟨b, List.mem_append_left _ hb, hn⟩

theorem RemoveBucket_valid (c : Config) (name : GoString) (h : DefaultValid c) :
    DefaultValid (c.RemoveBucket name).1 := by
  unfold Config.RemoveBucket
  cases hl : removeBucketLoop name c.Buckets with
  | none => exact h
  | some bs =>
    by_cases hd : c.DefaultBucket = name
    · left
      show (if c.DefaultBucket = name then [] else c.DefaultBucket) = []
      rw [if_pos hd]
    · rcases h with h | ⟨b, hb, hn⟩
      · left
        show (if c.DefaultBucket = name then [] else c.DefaultBucket) = []
        rw [if_neg hd]; exact h
      · right
        refine ⟨b, removeBucketLoop_keeps name c.Buckets bs hl b hb ?_, ?_⟩
        · rw [hn]; exact hd
        · show b.Name = (if c.DefaultBucket = name then [] else c.DefaultBucket)
          rw [if_neg hd]; exact hn

theorem SetDefault_cases (quote : GoString → GoString) (c : Config) (name : GoString) :
    ((∃ b ∈ c.Buckets, b.Name = name) →
        c.SetDefault quote name = ({ c with DefaultBucket := name }, none))
      ∧ ((∀ b ∈ c.Buckets, b.Name ≠ name) →
          ∃ err, c.SetDefault quote name = (c, some err)) := by
  unfold Config.SetDefault
  constructor
  · rintro ⟨b, hb, hn⟩
    cases hl : getBucketLoop name c.Buckets with
    | none => exact absurd hn ((getBucketLoop_none name c.Buckets).1 hl b hb)
    | some b1 => rfl
  · intro hno
    rw [(getBucketLoop_none name c.Buckets).2 hno]
    exact ⟨_, rfl⟩

theorem SetDefault_valid (quote : GoString → GoString) (c : Config) (name : GoString)
    (h : DefaultValid c) : DefaultValid (c.SetDefault quote name).1 := by
  unfold Config.SetDefault
  cases hl : getBucketLoop name c.Buckets with
  | none => exact h
  | some b =>
    obtain ⟨hb, hn⟩ := getBucketLoop_some name c.Buckets b hl
    exact Or.inr ⟨b, hb, hn⟩

/-- Claim C23. The config keeps its default bucket valid: if `DefaultBucket` is empty or
names a bucket of `Buckets`, the same holds after `AddBucket`, after `RemoveBucket`
(which clears `DefaultBucket` when it removes a bucket of that name) and after
`SetDefault`, which sets the default exactly when the name is configured and otherwise
returns an error and leaves the config unchanged. -/
theorem default_bucket_valid (quote : GoString → GoString) (c : Config)
    (name region profile : GoString)
    (h : c.DefaultBucket = [] ∨ ∃ b ∈ c.Buckets, b.Name = c.DefaultBucket) :
    DefaultValid (c.AddBucket name region profile)
      ∧ DefaultValid (c.RemoveBucket name).1
      ∧ DefaultValid (c.SetDefault quote name).1
      ∧ ((c.RemoveBucket name).2 = true → c.DefaultBucket = name →
          (c.RemoveBucket name).1.DefaultBucket = [])
      ∧ ((c.RemoveBucket name).2 = true ↔ ∃ b ∈ c.Buckets, b.Name = name)
      ∧ ((c.RemoveBucket name).2 = false → (c.RemoveBucket name).1 = c)
      ∧ ((∃ b ∈ c.Buckets, b.Name = name) →
          c.SetDefault quote name = ({ c with DefaultBucket := name }, none))
      ∧ ((∀ b ∈ c.Buckets, b.Name ≠ name) →
          ∃ err, c.SetDefault quote name = (c, some err)) := by
  refine ⟨AddBucket_valid c name region profile h, RemoveBucket_valid c name h,
    SetDefault_valid quote c name h, ?_, ?_, ?_, (SetDefault_cases quote c name).1,
    (SetDefault_cases quote c name).2⟩
  · intro hr hd
    unfold Config.RemoveBucket at hr ⊢
    cases hl : removeBucketLoop name c.Buckets with
    | none => rw [hl] at hr; exact Bool.noConfusion hr
    | some bs =>
      show (if c.DefaultBucket = name then [] else c.DefaultBucket) = []
      rw [if_pos hd]
  · unfold Config.RemoveBucket
    cases hl : removeBucketLoop name c.Buckets with
    | none =>
      have hall := (removeBucketLoop_none name c.Buckets).1 hl
      constructor
      · intro hf; exact Bool.noConfusion hf
      · rintro ⟨b, hb, hn⟩; exact absurd hn (hall b hb)
    | some bs =>
      refine ⟨fun _ => ?_, fun _ => rfl⟩
      by_contra hno
      have hall : ∀ b ∈ c.Buckets, b.Name ≠ name :=
        fun b hb hn => hno ⟨b, hb, hn⟩
      rw [(removeBucketLoop_none name c.Buckets).2 hall] at hl
      cases hl
  · intro hr
    unfold Config.RemoveBucket at hr ⊢
    cases hl : removeBucketLoop name c.Buckets with
    | none => rfl
    | some bs => rw [hl] at hr; exact Bool.noConfusion hr

theorem default_bucket_valid_witness :
    DefaultValid
      ((Config.mk "a".toList
          [⟨"a".toList, [], []⟩, ⟨"b".toList, [], []⟩, ⟨"a".toList, "eu".toList, []⟩]
          [] [] []).RemoveBucket "a".toList).1 :=
  (default_bucket_valid id
    (Config.mk "a".toList
      [⟨"a".toList, [], []⟩, ⟨"b".toList, [], []⟩, ⟨"a".toList, "eu".toList, []⟩]
      [] [] [])
    "a".toList [] [] (Or.inr ⟨⟨"a".toList, [], []⟩, by simp, rfl⟩)).2.1

end config
